import Mathlib

set_option maxHeartbeats 1000000

namespace ToMe

/-! Shallow embedding of tome/merge.py (Token Merging).  A tensor of shape
[batch, tokens, channels] is modelled one batch element at a time as a list of
token rows, each row a list of rational channel values; every torch operation
used by merge.py acts batch-elementwise with per-batch-element index tensors,
so the per-batch-element model is faithful.  Floating point is modelled by ℚ;
the -inf masking values are modelled by ⊥ in WithBot ℚ. -/

/-- Row of a tensor along the channel dimension. -/
abbrev Row := List ℚ

/-- One batch element of a [tokens, channels] tensor: the list of token rows. -/
abbrev Tensor := List Row

/-- Reduction modes of torch.Tensor.scatter_reduce that merge.py uses. -/
inductive Mode where
  | sum
  | mean
  | amax
deriving DecidableEq, Repr

/-- Pointwise addition of two rows (torch + on equal-shaped rows). -/
def rowAdd (a b : Row) : Row := List.zipWith (fun x y => x + y) a b

/-- Pointwise maximum of two rows. -/
def rowMax (a b : Row) : Row := List.zipWith (fun x y => max x y) a b

/-- Size of side A (even positions) of an n-token sequence. -/
def ta (n : ℕ) : ℕ := (n + 1) / 2

/-- Size of side B (odd positions) of an n-token sequence. -/
def tb (n : ℕ) : ℕ := n / 2

/-- x[..., ::2, :]: the even-position token rows. -/
def evens (x : Tensor) : Tensor :=
  (List.range (ta x.length)).map (fun i => x.getD (2 * i) [])

/-- x[..., 1::2, :]: the odd-position token rows. -/
def odds (x : Tensor) : Tensor :=
  (List.range (tb x.length)).map (fun i => x.getD (2 * i + 1) [])

/-- torch.gather along the token dimension: the rows of x at the listed indices. -/
def gatherRows (x : Tensor) (idx : List ℕ) : Tensor := idx.map (fun i => x.getD i [])

/-- Rows of src that scatter_reduce sends to destination j, in src order. -/
def contribTo (idx : List ℕ) (src : Tensor) (j : ℕ) : Tensor :=
  ((idx.zip src).filter (fun p => p.1 == j)).map Prod.snd

/-- One scatter_reduce cell: d is the existing destination row (include_self=True,
the torch default used by merge.py), s the contributing source rows. -/
def applyMode : Mode → Row → Tensor → Row
  | Mode.sum, d, s => s.foldl rowAdd d
  | Mode.amax, d, s => s.foldl rowMax d
  | Mode.mean, d, s => (s.foldl rowAdd d).map (fun q => q / ((1 + s.length : ℕ) : ℚ))

/-- dst.scatter_reduce(-2, idx, src, reduce=mode) with include_self=True. -/
def scatterReduce (mode : Mode) (dst : Tensor) (idx : List ℕ) (src : Tensor) : Tensor :=
  dst.mapIdx (fun j row => applyMode mode row (contribTo idx src j))

/-- out.scatter_(dim=-2, index=idx, src=src): write row src[k] at position idx[k].
merge.py only uses it with pairwise-distinct indices, where write order is moot. -/
def scatterAssign (x : Tensor) (idx : List ℕ) (src : Tensor) : Tensor :=
  (idx.zip src).foldl (fun acc p => acc.set p.1 p.2) x

/-- Dot product of two channel rows. -/
def dot (u v : Row) : ℚ := (List.zipWith (fun x y => x * y) u v).sum

/-- Exact rational square root: when q is the square of a rational this returns
that rational (numerator and denominator of q are then perfect squares); on
other inputs it returns a junk floor value.  It models the torch L2 norm, which
all developments below only evaluate at exact-square inputs. -/
def ratSqrt (q : ℚ) : ℚ := ((Nat.sqrt q.num.natAbs : ℤ) : ℚ) / ((Nat.sqrt q.den : ℤ) : ℚ)

/-- metric / metric.norm(dim=-1, keepdim=True): every token row divided by its
own L2 norm. -/
def normalizeRows (m : Tensor) : Tensor :=
  m.map (fun v => v.map (fun q => q / ratSqrt (dot v v)))

/-- First index attaining the maximum of f on range n, as torch max over a row
reports it; 0 on an empty range (where torch would raise). -/
def argmaxFrom {α : Type} [LinearOrder α] (f : ℕ → α) (n : ℕ) : ℕ :=
  (List.range n).foldl (fun best j => if f best < f j then j else best) 0

/-- Stable descending argsort of key on range n, the behaviour the spec fixes
for node_max.argsort(dim=-1, descending=True): larger keys first, ties kept in
original index order. -/
def argsortDesc (key : ℕ → WithBot ℚ) (n : ℕ) : List ℕ :=
  List.insertionSort (fun i j => key j ≤ key i) (List.range n)

/-- do_nothing from merge.py: the identity operator. -/
def do_nothing (x : Tensor) : Tensor := x

/-- The (merge, unmerge) closure pair returned by each constructor. -/
structure Ops where
  merge : Mode → Tensor → Tensor
  unmerge : Tensor → Tensor

/-- The identity operator pair (do_nothing, do_nothing). -/
def doNothingOps : Ops :=
  { merge := fun _ x => do_nothing x, unmerge := fun x => do_nothing x }

/-- Count of protected leading tokens. -/
def protectedCount (classTok distillTok : Bool) : ℕ :=
  (if classTok then 1 else 0) + (if distillTok then 1 else 0)

/-- r = min(r, (t - protected) // 2). -/
def clampR (t r : ℕ) (classTok distillTok : Bool) : ℕ :=
  min r ((t - protectedCount classTok distillTok) / 2)

/-- scores = a @ b.transpose(-1, -2) on the normalized metric, after the class
and distill maskings scores[..., 0, :] = -inf and scores[..., :, 0] = -inf. -/
def scores (m : Tensor) (c d : Bool) (i j : ℕ) : WithBot ℚ :=
  if c = true ∧ i = 0 then ⊥
  else if d = true ∧ j = 0 then ⊥
  else ((dot ((evens (normalizeRows m)).getD i []) ((odds (normalizeRows m)).getD j []) : ℚ) : WithBot ℚ)

/-- node_idx: per A-row index of its best-scoring B column (scores.max(dim=-1)). -/
def node_idx (m : Tensor) (c d : Bool) (i : ℕ) : ℕ :=
  argmaxFrom (fun j => scores m c d i j) (tb m.length)

/-- node_max: per A-row value of its best score. -/
def node_max (m : Tensor) (c d : Bool) (i : ℕ) : WithBot ℚ :=
  scores m c d i (node_idx m c d i)

/-- edge_idx = node_max.argsort(dim=-1, descending=True). -/
def edge_idx (m : Tensor) (c d : Bool) : List ℕ :=
  argsortDesc (node_max m c d) (ta m.length)

/-- src_idx = edge_idx[..., :r, :] (rr is the already clamped r). -/
def src_idx (m : Tensor) (rr : ℕ) (c d : Bool) : List ℕ := (edge_idx m c d).take rr

/-- unm_idx = edge_idx[..., r:, :], re-sorted ascending when class_token. -/
def unm_idx (m : Tensor) (rr : ℕ) (c d : Bool) : List ℕ :=
  let u := (edge_idx m c d).drop rr
  if c then List.insertionSort (fun i j => i ≤ j) u else u

/-- dst_idx = node_idx.gather(dim=-2, index=src_idx). -/
def dst_idx (m : Tensor) (rr : ℕ) (c d : Bool) : List ℕ :=
  (src_idx m rr c d).map (node_idx m c d)

/-- The distill_token output layout: [unm[:, :1], dst[:, :1], unm[:, 1:], dst[:, 1:]]. -/
def distillCat {α : Type} (unm dst : List α) : List α :=
  unm.take 1 ++ dst.take 1 ++ unm.drop 1 ++ dst.drop 1

/-- The bipartite merge closure (rr is the clamped r captured by the closure). -/
def bipMerge (m : Tensor) (rr : ℕ) (c d : Bool) (mode : Mode) (x : Tensor) : Tensor :=
  let src := evens x
  let dst := odds x
  let unm := gatherRows src (unm_idx m rr c d)
  let srcG := gatherRows src (src_idx m rr c d)
  let dstR := scatterReduce mode dst (dst_idx m rr c d) srcG
  if d then distillCat unm dstR else unm ++ dstR

/-- The bipartite unmerge closure. -/
def bipUnmerge (m : Tensor) (rr : ℕ) (c d : Bool) (x : Tensor) : Tensor :=
  let unmLen := (unm_idx m rr c d).length
  let unm := x.take unmLen
  let dst := x.drop unmLen
  let ch := (x.headD []).length
  let srcRows := gatherRows dst (dst_idx m rr c d)
  let out0 : Tensor := List.replicate m.length (List.replicate ch (0 : ℚ))
  let out1 := scatterAssign out0 ((List.range dst.length).map (fun j => 2 * j + 1)) dst
  let out2 := scatterAssign out1 ((unm_idx m rr c d).map (fun i => 2 * i)) unm
  scatterAssign out2 ((src_idx m rr c d).map (fun i => 2 * i)) srcRows

/-- bipartite_soft_matching from merge.py. -/
def bipartite_soft_matching (m : Tensor) (r : ℕ) (c d : Bool) : Ops :=
  let rr := clampR m.length r c d
  if rr = 0 then doNothingOps
  else { merge := bipMerge m rr c d, unmerge := bipUnmerge m rr c d }

/-- Source-row indices of the k-ary split: position p of group g sits at token
g * k + p, and the first k - 1 positions of each group are sources.  This is
the index arithmetic of the view/reshape in kth split. -/
def kthAIdx (k n : ℕ) : List ℕ :=
  (List.range ((n / k) * (k - 1))).map (fun i => (i / (k - 1)) * k + i % (k - 1))

/-- Destination-row indices of the k-ary split: the last token of each group. -/
def kthBIdx (k n : ℕ) : List ℕ :=
  (List.range (n / k)).map (fun g => g * k + (k - 1))

/-- Source half of split(x) in kth_bipartite_soft_matching. -/
def ksplitA (k : ℕ) (x : Tensor) : Tensor := gatherRows x (kthAIdx k x.length)

/-- Destination half of split(x) in kth_bipartite_soft_matching. -/
def ksplitB (k : ℕ) (x : Tensor) : Tensor := gatherRows x (kthBIdx k x.length)

/-- a @ b.transpose(-1, -2) for the k-ary split of the normalized metric. -/
def kthScores (m : Tensor) (k : ℕ) (i j : ℕ) : ℚ :=
  dot ((ksplitA k (normalizeRows m)).getD i []) ((ksplitB k (normalizeRows m)).getD j [])

/-- r = a.shape[1] in kth_bipartite_soft_matching. -/
def kthR (m : Tensor) (k : ℕ) : ℕ := (m.length / k) * (k - 1)

/-- dst_idx of kth_bipartite_soft_matching: best destination of each source row. -/
def kthDstIdx (m : Tensor) (k : ℕ) : List ℕ :=
  (List.range (kthR m k)).map (fun i => argmaxFrom (fun j => kthScores m k i j) (m.length / k))

/-- The k-ary merge closure. -/
def kthMerge (m : Tensor) (k : ℕ) (mode : Mode) (x : Tensor) : Tensor :=
  scatterReduce mode (ksplitB k x) (kthDstIdx m k) (ksplitA k x)

/-- The k-ary unmerge closure: gather each source row from its destination, then
interleave k - 1 source rows and 1 destination row per group. -/
def kthUnmerge (m : Tensor) (k : ℕ) (x : Tensor) : Tensor :=
  let src := gatherRows x (kthDstIdx m k)
  (List.range ((kthR m k / (k - 1)) * k)).map (fun q =>
    if q % k < k - 1 then src.getD ((q / k) * (k - 1) + q % k) [] else x.getD (q / k) [])

/-- kth_bipartite_soft_matching from merge.py. -/
def kth_bipartite_soft_matching (m : Tensor) (k : ℕ) : Ops :=
  if k ≤ 1 then doNothingOps
  else { merge := kthMerge m k, unmerge := kthUnmerge m k }

/-- a_idx = rand_idx[:, :r, :].  The random permutation rand_idx (argsort of a
fresh torch.rand draw) is modelled as the explicit parameter perm. -/
def randAIdx (perm : List ℕ) (r : ℕ) : List ℕ := perm.take r

/-- b_idx = rand_idx[:, r:, :]. -/
def randBIdx (perm : List ℕ) (r : ℕ) : List ℕ := perm.drop r

/-- a @ b.transpose(-1, -2) for the random split of the normalized metric. -/
def randScores (perm : List ℕ) (m : Tensor) (r : ℕ) (i j : ℕ) : ℚ :=
  dot ((gatherRows (normalizeRows m) (randAIdx perm r)).getD i [])
    ((gatherRows (normalizeRows m) (randBIdx perm r)).getD j [])

/-- dst_idx of random_bipartite_soft_matching. -/
def randDstIdx (perm : List ℕ) (m : Tensor) (r : ℕ) : List ℕ :=
  (List.range r).map (fun i => argmaxFrom (fun j => randScores perm m r i j) (m.length - r))

/-- The random merge closure. -/
def randMerge (perm : List ℕ) (m : Tensor) (r : ℕ) (mode : Mode) (x : Tensor) : Tensor :=
  scatterReduce mode (gatherRows x (randBIdx perm r)) (randDstIdx perm m r)
    (gatherRows x (randAIdx perm r))

/-- The random unmerge closure. -/
def randUnmerge (perm : List ℕ) (m : Tensor) (r : ℕ) (x : Tensor) : Tensor :=
  let ch := (x.headD []).length
  let src := gatherRows x (randDstIdx perm m r)
  let out0 : Tensor := List.replicate m.length (List.replicate ch (0 : ℚ))
  let out1 := scatterAssign out0 (randAIdx perm r) src
  scatterAssign out1 (randBIdx perm r) x

/-- random_bipartite_soft_matching from merge.py, the random draw passed in as
the permutation perm. -/
def random_bipartite_soft_matching (perm : List ℕ) (m : Tensor) (r : ℕ) : Ops :=
  if r = 0 then doNothingOps
  else { merge := randMerge perm m r, unmerge := randUnmerge perm m r }

/-- torch.ones_like(x[..., 0, None]): the [tokens, 1] all-ones size tensor. -/
def onesLike (x : Tensor) : Tensor := x.map (fun _ => [(1 : ℚ)])

/-- x * size, size of shape [tokens, 1] broadcast over channels. -/
def mulSize (x size : Tensor) : Tensor :=
  List.zipWith (fun row s => row.map (fun q => q * s.getD 0 0)) x size

/-- x / size, size of shape [tokens, 1] broadcast over channels. -/
def divSize (x size : Tensor) : Tensor :=
  List.zipWith (fun row s => row.map (fun q => q / s.getD 0 0)) x size

/-- merge_wavg from merge.py. -/
def merge_wavg (mer : Mode → Tensor → Tensor) (x : Tensor) (size : Option Tensor) :
    Tensor × Tensor :=
  let size0 := size.getD (onesLike x)
  let x1 := mer Mode.sum (mulSize x size0)
  let size1 := mer Mode.sum size0
  (divSize x1 size1, size1)

/-- torch.eye(t)[None, ...].expand(n, t, t): one batch element of the identity
provenance matrix. -/
def eye (n : ℕ) : Tensor :=
  (List.range n).map (fun i => (List.range n).map (fun p => if p = i then (1 : ℚ) else 0))

/-- merge_source from merge.py. -/
def merge_source (mer : Mode → Tensor → Tensor) (x : Tensor) (source : Option Tensor) : Tensor :=
  let source0 := source.getD (eye x.length)
  mer Mode.amax source0

/-- Reduction of a nonempty group of rows, the first row acting as the scatter
destination (include_self). -/
def reduceRows (mode : Mode) (rows : Tensor) : Row :=
  applyMode mode (rows.headD []) rows.tail

/-! The output groups of the bipartite merge: for every output row, the list of
original token positions whose values are fused into that row. -/

/-- Group of a kept (unmerged) output row: one even position. -/
def unmGroups (m : Tensor) (rr : ℕ) (c d : Bool) : List (List ℕ) :=
  (unm_idx m rr c d).map (fun i => [2 * i])

/-- Group of a destination output row: its odd position 2j+1 followed by the
even positions merged into it, in src_idx order. -/
def dstGroups (m : Tensor) (rr : ℕ) (c d : Bool) : List (List ℕ) :=
  (List.range (tb m.length)).map (fun j =>
    (2 * j + 1) :: ((src_idx m rr c d).filter (fun i => node_idx m c d i == j)).map (fun i => 2 * i))

/-- All output groups, in bipMerge output-row order (the distill layout applies
the same interleaving to the groups as bipMerge applies to the rows). -/
def bipGroups (m : Tensor) (rr : ℕ) (c d : Bool) : List (List ℕ) :=
  if d then distillCat (unmGroups m rr c d) (dstGroups m rr c d)
  else unmGroups m rr c d ++ dstGroups m rr c d

/-! Round trip: unmerge after merge with mean reduction. -/

/-- The fused value of destination j under mean reduction: the mean of the
destination row at position 2j+1 and every source row merged into it. -/
def fusedRow (m : Tensor) (rr : ℕ) (c d : Bool) (x : Tensor) (j : ℕ) : Row :=
  reduceRows Mode.mean
    ((x.getD (2 * j + 1) []) ::
      ((src_idx m rr c d).filter (fun i => node_idx m c d i == j)).map
        (fun i => x.getD (2 * i) []))

/-- The fused value of random destination j under mean reduction: the mean of
the destination row and every randomly selected source row merged into it. -/
def fusedRandRow (perm : List ℕ) (m : Tensor) (r : ℕ) (x : Tensor) (j : ℕ) : Row :=
  reduceRows Mode.mean
    ((x.getD ((randBIdx perm r).getD j 0) []) ::
      ((List.range r).filter (fun k => (randDstIdx perm m r).getD k 0 == j)).map
        (fun k => x.getD ((randAIdx perm r).getD k 0) []))

/-! Chains of bipartite merges: merge_wavg and merge_source threaded through a
sequence of constructed operators. -/

/-- One bipartite construction in a chain of merges. -/
structure BipSpec where
  metric : Tensor
  r : ℕ
  classTok : Bool
  distillTok : Bool

/-- The clamped r of one chain step. -/
def specClamp (s : BipSpec) : ℕ := clampR s.metric.length s.r s.classTok s.distillTok

/-- The operator pair of one chain step. -/
def specOps (s : BipSpec) : Ops :=
  bipartite_soft_matching s.metric s.r s.classTok s.distillTok

/-- Merge groups of one chain step: the bipartite groups when the clamped r is
positive, and the singleton groups of the identity operator otherwise. -/
def specGroups (s : BipSpec) : List (List ℕ) :=
  if specClamp s = 0 then (List.range s.metric.length).map (fun i => [i])
  else bipGroups s.metric (specClamp s) s.classTok s.distillTok

/-- Each step's metric must be built on the token count left by the steps
before it. -/
def chainValid : ℕ → List BipSpec → Bool
  | _, [] => true
  | n, s :: rest => s.metric.length == n && chainValid (n - specClamp s) rest

/-- merge_wavg folded along a chain, threading the returned size forward and
starting from the all-ones default. -/
def wavgChain (specs : List BipSpec) (x0 : Tensor) : Tensor × Tensor :=
  specs.foldl (fun p s => merge_wavg (specOps s).merge p.1 (some p.2)) (x0, onesLike x0)

/-- merge_source folded along a chain, starting from the identity provenance. -/
def sourceChain (specs : List BipSpec) (n : ℕ) : Tensor :=
  specs.foldl (fun src s => merge_source (specOps s).merge [] (some src)) (eye n)

/-- Provenance composition: the original positions of the new group t are the
original positions of all previous tokens listed in S t. -/
def composeGroups (S P : List (List ℕ)) : List (List ℕ) :=
  S.map (fun g => (g.map (fun u => P.getD u [])).flatten)

/-- Provenance groups after a chain: for each final token, the list of original
token positions folded into it. -/
def provChain (specs : List BipSpec) (n : ℕ) : List (List ℕ) :=
  specs.foldl (fun P s => composeGroups (specGroups s) P) ((List.range n).map (fun i => [i]))

/-- The 0/1 provenance row of a group of original positions. -/
def indicatorRow (n : ℕ) (g : List ℕ) : Row :=
  (List.range n).map (fun p => if p ∈ g then (1 : ℚ) else 0)

/-- The chain invariant: x carries the per-token running weighted mean of the
original rows, size their count, src their 0/1 provenance indicator, and the
provenance groups P partition the original positions. -/
def ChainInv (n : ℕ) (x0 : Tensor) (P : List (List ℕ)) (x size src : Tensor) : Prop :=
  x.length = P.length ∧ size.length = P.length ∧ src.length = P.length
  ∧ (∀ g ∈ P, g ≠ []) ∧ P.flatten.Perm (List.range n)
  ∧ (∀ t, t < P.length →
      size.getD t [] = [(((P.getD t []).length : ℕ) : ℚ)]
      ∧ x.getD t [] = reduceRows Mode.mean ((P.getD t []).map (fun q => x0.getD q []))
      ∧ src.getD t [] = indicatorRow n (P.getD t []))

/-! Basic lemmas about the list-level tensor primitives. -/

theorem getD_map_range {α : Type} (f : ℕ → α) {n i : ℕ} (h : i < n) (d : α) :
    ((List.range n).map f).getD i d = f i := by
  simp [List.getD_eq_getElem?_getD, List.getElem?_range h]

theorem length_gatherRows (x : Tensor) (idx : List ℕ) :
    (gatherRows x idx).length = idx.length := by
  simp [gatherRows]

theorem getD_gatherRows (x : Tensor) {idx : List ℕ} {k : ℕ} (h : k < idx.length) (d : Row) :
    (gatherRows x idx).getD k d = x.getD (idx.getD k 0) [] := by
  simp [gatherRows, List.getD_eq_getElem?_getD, List.getElem?_eq_getElem h]

theorem length_evens (x : Tensor) : (evens x).length = ta x.length := by
  simp [evens]

theorem length_odds (x : Tensor) : (odds x).length = tb x.length := by
  simp [odds]

theorem getD_evens (x : Tensor) {i : ℕ} (h : i < ta x.length) (d : Row) :
    (evens x).getD i d = x.getD (2 * i) [] :=
  getD_map_range _ h _

theorem getD_odds (x : Tensor) {i : ℕ} (h : i < tb x.length) (d : Row) :
    (odds x).getD i d = x.getD (2 * i + 1) [] :=
  getD_map_range _ h _

theorem length_scatterReduce (mode : Mode) (dst : Tensor) (idx : List ℕ) (src : Tensor) :
    (scatterReduce mode dst idx src).length = dst.length := by
  simp [scatterReduce]

theorem getD_scatterReduce {mode : Mode} {dst : Tensor} {idx : List ℕ} {src : Tensor} {j : ℕ}
    (h : j < dst.length) (d : Row) :
    (scatterReduce mode dst idx src).getD j d = applyMode mode (dst.getD j []) (contribTo idx src j) := by
  simp [scatterReduce, List.getD_eq_getElem?_getD, List.getElem?_eq_getElem h]

theorem applyMode_nil (mode : Mode) (d : Row) : applyMode mode d [] = d := by
  cases mode <;> simp [applyMode]

theorem reduceRows_single (mode : Mode) (row : Row) : reduceRows mode [row] = row := by
  simp [reduceRows, applyMode_nil]

theorem scatterAssign_nil_src (x : Tensor) (idx : List ℕ) : scatterAssign x idx [] = x := by
  simp [scatterAssign]

theorem scatterAssign_cons (x : Tensor) (i : ℕ) (idx : List ℕ) (s : Row) (src : Tensor) :
    scatterAssign x (i :: idx) (s :: src) = scatterAssign (x.set i s) idx src := rfl

theorem length_scatterAssign (x : Tensor) (idx : List ℕ) (src : Tensor) :
    (scatterAssign x idx src).length = x.length := by
  induction idx generalizing x src with
  | nil => rfl
  | cons i idx ih =>
    cases src with
    | nil => rfl
    | cons s src => rw [scatterAssign_cons, ih]; simp

theorem getD_scatterAssign_not_mem {x src : Tensor} {idx : List ℕ} {p : ℕ} (h : p ∉ idx) (d : Row) :
    (scatterAssign x idx src).getD p d = x.getD p d := by
  induction idx generalizing x src with
  | nil => rfl
  | cons i idx ih =>
    cases src with
    | nil => rfl
    | cons s src =>
      rw [scatterAssign_cons, ih (fun hm => h (List.mem_cons_of_mem _ hm))]
      have hne : i ≠ p := fun he => h (he ▸ List.mem_cons_self _ _)
      simp [List.getD_eq_getElem?_getD, List.getElem?_set_ne hne]

theorem getD_scatterAssign_mem {x src : Tensor} {idx : List ℕ} (hnd : idx.Nodup) {k : ℕ}
    (hk : k < idx.length) (hks : k < src.length) (hb : idx.getD k 0 < x.length) (d : Row) :
    (scatterAssign x idx src).getD (idx.getD k 0) d = src.getD k d := by
  induction idx generalizing x src k with
  | nil => simp at hk
  | cons i idx ih =>
    cases src with
    | nil => simp at hks
    | cons s src =>
      rw [scatterAssign_cons]
      cases k with
      | zero =>
        have hni : i ∉ idx := (List.nodup_cons.mp hnd).1
        rw [show ((i :: idx).getD 0 0) = i from rfl] at hb ⊢
        rw [getD_scatterAssign_not_mem hni]
        simp [List.getD_eq_getElem?_getD, List.getElem?_set, hb]
      | succ k =>
        have hb2 : idx.getD k 0 < (x.set i s).length := by simpa using hb
        exact ih (List.nodup_cons.mp hnd).2 (by simpa using hk) (by simpa using hks) hb2

/-! Lemmas about argmaxFrom and argsortDesc. -/

theorem foldl_argmax_mem {α : Type} [LinearOrder α] (f : ℕ → α) (l : List ℕ) (b : ℕ) :
    l.foldl (fun best j => if f best < f j then j else best) b = b ∨
      l.foldl (fun best j => if f best < f j then j else best) b ∈ l := by
  induction l generalizing b with
  | nil => exact Or.inl rfl
  | cons j l ih =>
    rcases ih (if f b < f j then j else b) with h | h
    · rw [List.foldl_cons, h]
      by_cases hc : f b < f j <;> simp [hc]
    · exact Or.inr (List.mem_cons_of_mem _ h)

theorem foldl_argmax_le {α : Type} [LinearOrder α] (f : ℕ → α) (l : List ℕ) (b : ℕ) :
    f b ≤ f (l.foldl (fun best j => if f best < f j then j else best) b) ∧
      ∀ j ∈ l, f j ≤ f (l.foldl (fun best j => if f best < f j then j else best) b) := by
  induction l generalizing b with
  | nil => exact ⟨le_refl _, by simp⟩
  | cons j l ih =>
    obtain ⟨h1, h2⟩ := ih (if f b < f j then j else b)
    have hb1 : f b ≤ f (if f b < f j then j else b) := by
      by_cases hc : f b < f j
      · simp [hc, le_of_lt hc]
      · simp [hc]
    have hj1 : f j ≤ f (if f b < f j then j else b) := by
      by_cases hc : f b < f j
      · simp [hc]
      · simp [hc, le_of_not_lt hc]
    refine ⟨le_trans hb1 h1, ?_⟩
    intro a ha
    rcases List.mem_cons.mp ha with rfl | ha
    · exact le_trans hj1 h1
    · exact h2 a ha

theorem argmaxFrom_lt {α : Type} [LinearOrder α] (f : ℕ → α) {n : ℕ} (h : 0 < n) :
    argmaxFrom f n < n := by
  rcases foldl_argmax_mem f (List.range n) 0 with hm | hm
  · rw [argmaxFrom, hm]; exact h
  · exact List.mem_range.mp hm

theorem le_argmaxFrom {α : Type} [LinearOrder α] (f : ℕ → α) {n j : ℕ} (hj : j < n) :
    f j ≤ f (argmaxFrom f n) :=
  (foldl_argmax_le f (List.range n) 0).2 j (List.mem_range.mpr hj)

theorem argsortDesc_perm (key : ℕ → WithBot ℚ) (n : ℕ) :
    (argsortDesc key n).Perm (List.range n) :=
  List.perm_insertionSort _ _

theorem argsortDesc_nodup (key : ℕ → WithBot ℚ) (n : ℕ) : (argsortDesc key n).Nodup :=
  (argsortDesc_perm key n).symm.nodup (List.nodup_range n)

theorem argsortDesc_sorted (key : ℕ → WithBot ℚ) (n : ℕ) :
    (argsortDesc key n).Sorted (fun i j => key j ≤ key i) := by
  haveI : IsTotal ℕ (fun i j => key j ≤ key i) := ⟨fun a b => le_total (key b) (key a)⟩
  haveI : IsTrans ℕ (fun i j => key j ≤ key i) := ⟨fun a b c hab hbc => le_trans hbc hab⟩
  exact List.sorted_insertionSort _ _

/-! Index bookkeeping facts for bipartite_soft_matching. -/

theorem mem_edge_idx {m : Tensor} {c d : Bool} {i : ℕ} :
    i ∈ edge_idx m c d ↔ i < ta m.length := by
  unfold edge_idx
  rw [(argsortDesc_perm (node_max m c d) (ta m.length)).mem_iff]
  exact List.mem_range

theorem edge_idx_nodup (m : Tensor) (c d : Bool) : (edge_idx m c d).Nodup :=
  argsortDesc_nodup _ _

theorem src_idx_subset {m : Tensor} {rr : ℕ} {c d : Bool} :
    ∀ i ∈ src_idx m rr c d, i < ta m.length := fun _ hi =>
  mem_edge_idx.mp (List.take_subset _ _ hi)

theorem unm_idx_perm_drop (m : Tensor) (rr : ℕ) (c d : Bool) :
    (unm_idx m rr c d).Perm ((edge_idx m c d).drop rr) := by
  cases c <;> simp only [unm_idx, if_true, if_false, Bool.false_eq_true]
  · exact List.Perm.refl _
  · exact List.perm_insertionSort _ _

theorem unm_idx_subset {m : Tensor} {rr : ℕ} {c d : Bool} :
    ∀ i ∈ unm_idx m rr c d, i < ta m.length := fun i hi =>
  mem_edge_idx.mp (List.drop_subset _ _ ((unm_idx_perm_drop m rr c d).mem_iff.mp hi))

theorem src_unm_append_perm (m : Tensor) (rr : ℕ) (c d : Bool) :
    (src_idx m rr c d ++ unm_idx m rr c d).Perm (List.range (ta m.length)) := by
  have h2 : (src_idx m rr c d ++ unm_idx m rr c d).Perm
      (src_idx m rr c d ++ (edge_idx m c d).drop rr) :=
    List.Perm.append_left _ (unm_idx_perm_drop m rr c d)
  have h3 : src_idx m rr c d ++ (edge_idx m c d).drop rr = edge_idx m c d :=
    List.take_append_drop _ _
  have h4 : (src_idx m rr c d ++ (edge_idx m c d).drop rr).Perm (List.range (ta m.length)) := by
    rw [h3]
    unfold edge_idx
    exact argsortDesc_perm _ _
  exact h2.trans h4

theorem src_idx_nodup (m : Tensor) (rr : ℕ) (c d : Bool) : (src_idx m rr c d).Nodup :=
  List.Nodup.sublist (List.take_sublist _ _) (edge_idx_nodup m c d)

theorem unm_idx_nodup (m : Tensor) (rr : ℕ) (c d : Bool) : (unm_idx m rr c d).Nodup :=
  (unm_idx_perm_drop m rr c d).symm.nodup
    (List.Nodup.sublist (List.drop_sublist _ _) (edge_idx_nodup m c d))

theorem src_unm_disjoint (m : Tensor) (rr : ℕ) (c d : Bool) :
    ∀ i ∈ src_idx m rr c d, i ∉ unm_idx m rr c d := by
  have hnd : ((edge_idx m c d).take rr ++ (edge_idx m c d).drop rr).Nodup := by
    rw [List.take_append_drop]
    exact edge_idx_nodup m c d
  rw [List.nodup_append] at hnd
  intro i hi hiu
  exact hnd.2.2 hi ((unm_idx_perm_drop m rr c d).mem_iff.mp hiu)

theorem node_idx_lt (m : Tensor) (c d : Bool) (i : ℕ) (h : 0 < tb m.length) :
    node_idx m c d i < tb m.length :=
  argmaxFrom_lt _ h

/-! Counting lemmas used for the partition property. -/

theorem count_filter_eq (p : ℕ → Bool) (a : ℕ) (l : List ℕ) :
    List.count a (l.filter p) = if p a then List.count a l else 0 := by
  by_cases h : p a
  · simp [h, List.count_filter]
  · simp only [h, if_false, Bool.false_eq_true]
    exact List.count_eq_zero.mpr (fun hm => h (List.of_mem_filter hm))

theorem sum_map_range_single (v j n : ℕ) :
    (((List.range n).map (fun t => if j = t then v else 0)).sum) = if j < n then v else 0 := by
  induction n with
  | zero => simp
  | succ n ih =>
    rw [List.range_succ, List.map_append, List.sum_append, ih]
    simp only [List.map_cons, List.map_nil, List.sum_cons, List.sum_nil]
    split_ifs <;> omega

theorem count_range_eq (a n : ℕ) : List.count a (List.range n) = if a < n then 1 else 0 := by
  by_cases h : a < n
  · simp [h, List.count_eq_one_of_mem (List.nodup_range n) (List.mem_range.mpr h)]
  · simp [h, List.count_eq_zero.mpr (fun hm => h (List.mem_range.mp hm))]

theorem flatten_map_nil {α β : Type} (l : List α) :
    (l.map (fun _ => ([] : List β))).flatten = [] := by
  induction l with
  | nil => rfl
  | cons a l ih => simpa using ih

theorem count_flatten_cons (x : ℕ) (l : List ℕ) (a : ℕ → ℕ) (F : ℕ → List ℕ) :
    List.count x ((l.map (fun j => a j :: F j)).flatten)
      = List.count x (l.map a) + List.count x ((l.map F).flatten) := by
  induction l with
  | nil => simp
  | cons j l ih =>
    simp only [List.map_cons, List.flatten_cons, List.count_append, List.count_cons, ih]
    omega

theorem count_flatten_filter_groups (src : List ℕ) (f : ℕ → ℕ) (n : ℕ)
    (h : ∀ i ∈ src, f i < n) (a : ℕ) :
    List.count a (((List.range n).map (fun j => src.filter (fun i => f i == j))).flatten)
      = List.count a src := by
  rw [List.count_flatten, List.map_map]
  have hfun : (List.count a ∘ fun j => src.filter (fun i => f i == j))
      = fun j => if f a = j then List.count a src else 0 := by
    funext j
    simp only [Function.comp_apply]
    rw [count_filter_eq]
    simp [beq_iff_eq]
  rw [hfun, sum_map_range_single]
  by_cases ha : a ∈ src
  · simp [h a ha]
  · simp [List.count_eq_zero.mpr ha]

theorem count_map_double (p : ℕ) (l : List ℕ) :
    List.count p (l.map (fun i => 2 * i)) = if p % 2 = 0 then List.count (p / 2) l else 0 := by
  by_cases hp : p % 2 = 0
  · have h2 : p = 2 * (p / 2) := by omega
    rw [if_pos hp]
    nth_rewrite 1 [h2]
    exact List.count_map_of_injective l (fun i => 2 * i)
      (fun a b hab => by have h2a : 2 * a = 2 * b := hab; omega) (p / 2)
  · rw [if_neg hp]
    refine List.count_eq_zero.mpr (fun hm => ?_)
    obtain ⟨i, _, hi⟩ := List.mem_map.mp hm
    omega

theorem count_map_double_succ (p : ℕ) (l : List ℕ) :
    List.count p (l.map (fun i => 2 * i + 1)) = if p % 2 = 1 then List.count (p / 2) l else 0 := by
  by_cases hp : p % 2 = 1
  · have h2 : p = 2 * (p / 2) + 1 := by omega
    rw [if_pos hp]
    nth_rewrite 1 [h2]
    exact List.count_map_of_injective l (fun i => 2 * i + 1)
      (fun a b hab => by have h2a : 2 * a + 1 = 2 * b + 1 := hab; omega) (p / 2)
  · rw [if_neg hp]
    refine List.count_eq_zero.mpr (fun hm => ?_)
    obtain ⟨i, _, hi⟩ := List.mem_map.mp hm
    omega

theorem length_distillCat {α : Type} (a b : List α) :
    (distillCat a b).length = a.length + b.length := by
  simp [distillCat]
  omega

theorem length_bipGroups (m : Tensor) (rr : ℕ) (c d : Bool) :
    (bipGroups m rr c d).length = (unm_idx m rr c d).length + tb m.length := by
  unfold bipGroups unmGroups dstGroups
  cases d <;> simp [length_distillCat]

theorem bipGroups_flatten_perm (m : Tensor) (rr : ℕ) (c d : Bool) (htb : 0 < tb m.length) :
    (bipGroups m rr c d).flatten.Perm (List.range m.length) := by
  rw [List.perm_iff_count]
  intro p
  have hslice : List.count p (bipGroups m rr c d).flatten
      = List.count p (unmGroups m rr c d).flatten
        + List.count p (dstGroups m rr c d).flatten := by
    unfold bipGroups
    cases d
    · simp
    · simp only [if_true]
      conv_rhs =>
        rw [← List.take_append_drop 1 (unmGroups m rr c true),
          ← List.take_append_drop 1 (dstGroups m rr c true)]
      unfold distillCat
      simp only [List.flatten_append, List.count_append]
      omega
  have hU : List.count p (unmGroups m rr c d).flatten
      = List.count p ((unm_idx m rr c d).map (fun i => 2 * i)) := by
    unfold unmGroups
    rw [count_flatten_cons p (unm_idx m rr c d) (fun i => 2 * i) (fun _ => [])]
    rw [flatten_map_nil]
    simp
  have hnode : ∀ i ∈ src_idx m rr c d, node_idx m c d i < tb m.length :=
    fun i _ => node_idx_lt m c d i htb
  have hD : List.count p (dstGroups m rr c d).flatten
      = List.count p ((List.range (tb m.length)).map (fun j => 2 * j + 1))
        + List.count p ((src_idx m rr c d).map (fun i => 2 * i)) := by
    unfold dstGroups
    rw [count_flatten_cons p (List.range (tb m.length)) (fun j => 2 * j + 1)
      (fun j => ((src_idx m rr c d).filter (fun i => node_idx m c d i == j)).map (fun i => 2 * i))]
    congr 1
    have hmm : (List.range (tb m.length)).map
        (fun j => ((src_idx m rr c d).filter (fun i => node_idx m c d i == j)).map (fun i => 2 * i))
        = ((List.range (tb m.length)).map
            (fun j => (src_idx m rr c d).filter (fun i => node_idx m c d i == j))).map
          (List.map (fun i => 2 * i)) := by
      rw [List.map_map]
      simp [Function.comp]
    rw [hmm, ← List.map_flatten, count_map_double, count_map_double,
      count_flatten_filter_groups (src_idx m rr c d) (node_idx m c d) (tb m.length) hnode]
  have hA := count_map_double p (unm_idx m rr c d)
  have hE := count_map_double p (src_idx m rr c d)
  have hB := count_map_double_succ p (List.range (tb m.length))
  have hB2 : List.count (p / 2) (List.range (tb m.length))
      = if p / 2 < tb m.length then 1 else 0 := count_range_eq _ _
  rw [hB2] at hB
  have hR := count_range_eq p m.length
  rw [hslice, hU, hD, hA, hE, hB, hR]
  have hsum : List.count (p / 2) (src_idx m rr c d) + List.count (p / 2) (unm_idx m rr c d)
      = if p / 2 < ta m.length then 1 else 0 := by
    have hperm := (List.perm_iff_count.mp (src_unm_append_perm m rr c d)) (p / 2)
    rw [List.count_append, count_range_eq] at hperm
    exact hperm
  have hta : ta m.length = (m.length + 1) / 2 := rfl
  have htb2 : tb m.length = m.length / 2 := rfl
  split_ifs at hsum ⊢ <;> omega

/-! The bipartite merge as a partition collector: every output row is the
mode-reduction of its group of input rows. -/

theorem reduceRows_cons (mode : Mode) (a : Row) (l : Tensor) :
    reduceRows mode (a :: l) = applyMode mode a l := rfl

theorem forall₂_map_same {α β γ : Type} {R : β → γ → Prop} (f : α → β) (g : α → γ) (l : List α)
    (h : ∀ a ∈ l, R (f a) (g a)) : List.Forall₂ R (l.map f) (l.map g) := by
  induction l with
  | nil => exact List.Forall₂.nil
  | cons a l ih =>
    exact List.Forall₂.cons (h a (List.mem_cons_self a l))
      (ih (fun b hb => h b (List.mem_cons_of_mem a hb)))

theorem forall₂_getD {α β : Type} {R : α → β → Prop} {l₁ : List α} {l₂ : List β}
    (h : List.Forall₂ R l₁ l₂) {t : ℕ} (ht : t < l₁.length) (d₁ : α) (d₂ : β) :
    R (l₁.getD t d₁) (l₂.getD t d₂) := by
  have hlen := h.length_eq
  have ht2 : t < l₂.length := hlen ▸ ht
  have hg := (List.forall₂_iff_get.mp h).2 t ht ht2
  rw [List.getD_eq_getElem _ _ ht, List.getD_eq_getElem _ _ ht2]
  simpa [List.get_eq_getElem] using hg

theorem contribTo_map_pair (f : ℕ → ℕ) (g : ℕ → Row) (l : List ℕ) (j : ℕ) :
    contribTo (l.map f) (l.map g) j = (l.filter (fun i => f i == j)).map g := by
  unfold contribTo
  rw [List.zip_map' f g l, List.filter_map, List.map_map]
  rfl

theorem bip_unm_part (m : Tensor) (rr : ℕ) (c d : Bool) (mode : Mode) (x : Tensor)
    (hx : x.length = m.length) :
    List.Forall₂ (fun row g => row = reduceRows mode (g.map (fun p => x.getD p [])))
      (gatherRows (evens x) (unm_idx m rr c d)) (unmGroups m rr c d) := by
  unfold gatherRows unmGroups
  apply forall₂_map_same
  intro i hi
  have hlt : i < ta x.length := by rw [hx]; exact unm_idx_subset i hi
  rw [getD_evens x hlt, List.map_cons, List.map_nil, reduceRows_single]

theorem bip_dst_part (m : Tensor) (rr : ℕ) (c d : Bool) (mode : Mode) (x : Tensor)
    (hx : x.length = m.length) :
    List.Forall₂ (fun row g => row = reduceRows mode (g.map (fun p => x.getD p [])))
      (scatterReduce mode (odds x) (dst_idx m rr c d) (gatherRows (evens x) (src_idx m rr c d)))
      (dstGroups m rr c d) := by
  rw [List.forall₂_iff_get]
  constructor
  · rw [length_scatterReduce, length_odds, hx]
    simp [dstGroups]
  · intro j h₁ h₂
    have hj : j < tb m.length := by
      have : (dstGroups m rr c d).length = tb m.length := by simp [dstGroups]
      rw [← this]
      exact h₂
    have hjx : j < (odds x).length := by rw [length_odds, hx]; exact hj
    have e1 : (scatterReduce mode (odds x) (dst_idx m rr c d)
          (gatherRows (evens x) (src_idx m rr c d))).getD j []
        = applyMode mode ((odds x).getD j [])
            (contribTo (dst_idx m rr c d) (gatherRows (evens x) (src_idx m rr c d)) j) :=
      getD_scatterReduce (by rw [length_odds, hx]; exact hj) []
    have e2 : (dstGroups m rr c d).getD j []
        = (2 * j + 1) ::
            ((src_idx m rr c d).filter (fun i => node_idx m c d i == j)).map (fun i => 2 * i) := by
      unfold dstGroups
      exact getD_map_range _ hj _
    have e3 : contribTo (dst_idx m rr c d) (gatherRows (evens x) (src_idx m rr c d)) j
        = ((src_idx m rr c d).filter (fun i => node_idx m c d i == j)).map
            (fun i => (evens x).getD i []) := by
      unfold dst_idx gatherRows
      exact contribTo_map_pair _ _ _ _
    have e4 : ((src_idx m rr c d).filter (fun i => node_idx m c d i == j)).map
          (fun i => (evens x).getD i [])
        = ((src_idx m rr c d).filter (fun i => node_idx m c d i == j)).map
            (fun i => x.getD (2 * i) []) := by
      apply List.map_congr_left
      intro i hi
      have his : i ∈ src_idx m rr c d := List.mem_of_mem_filter hi
      have hlt : i < ta x.length := by rw [hx]; exact src_idx_subset i his
      exact getD_evens x hlt []
    have hget1 : (scatterReduce mode (odds x) (dst_idx m rr c d)
          (gatherRows (evens x) (src_idx m rr c d))).get ⟨j, h₁⟩
        = (scatterReduce mode (odds x) (dst_idx m rr c d)
          (gatherRows (evens x) (src_idx m rr c d))).getD j [] := by
      rw [List.getD_eq_getElem _ _ h₁]
      simp [List.get_eq_getElem]
    have hget2 : (dstGroups m rr c d).get ⟨j, h₂⟩ = (dstGroups m rr c d).getD j [] := by
      rw [List.getD_eq_getElem _ _ h₂]
      simp [List.get_eq_getElem]
    rw [hget1, hget2, e1, e2, e3, e4, List.map_cons, reduceRows_cons, List.map_map]
    rw [getD_odds x (by rw [hx]; exact hj)]
    rfl

theorem bipMerge_forall₂ (m : Tensor) (rr : ℕ) (c d : Bool) (mode : Mode) (x : Tensor)
    (hx : x.length = m.length) :
    List.Forall₂ (fun row g => row = reduceRows mode (g.map (fun p => x.getD p [])))
      (bipMerge m rr c d mode x) (bipGroups m rr c d) := by
  have hU := bip_unm_part m rr c d mode x hx
  have hD := bip_dst_part m rr c d mode x hx
  cases d
  · simp only [bipMerge, bipGroups, if_false, Bool.false_eq_true]
    exact List.rel_append hU hD
  · simp only [bipMerge, bipGroups, if_true]
    unfold distillCat
    exact List.rel_append
      (List.rel_append (List.rel_append (List.forall₂_take 1 hU) (List.forall₂_take 1 hD))
        (List.forall₂_drop 1 hU))
      (List.forall₂_drop 1 hD)

theorem length_bipMerge (m : Tensor) (rr : ℕ) (c d : Bool) (mode : Mode) (x : Tensor)
    (hx : x.length = m.length) :
    (bipMerge m rr c d mode x).length = (unm_idx m rr c d).length + tb m.length :=
  (bipMerge_forall₂ m rr c d mode x hx).length_eq.trans (length_bipGroups m rr c d)

/-! Protected-token and length facts about the selected indices. -/

theorem length_edge_idx (m : Tensor) (c d : Bool) : (edge_idx m c d).length = ta m.length := by
  unfold edge_idx
  rw [(argsortDesc_perm _ _).length_eq, List.length_range]

theorem length_src_idx (m : Tensor) (rr : ℕ) (c d : Bool) (h : rr ≤ ta m.length) :
    (src_idx m rr c d).length = rr := by
  unfold src_idx
  rw [List.length_take, length_edge_idx]
  omega

theorem length_unm_idx (m : Tensor) (rr : ℕ) (c d : Bool) :
    (unm_idx m rr c d).length = ta m.length - rr := by
  unfold unm_idx
  cases c <;> simp [List.length_insertionSort, List.length_drop, length_edge_idx]

theorem node_max_ne_bot (m : Tensor) (c d : Bool) (i : ℕ) (hi : ¬(c = true ∧ i = 0))
    (htb : (if d = true then 2 else 1) ≤ tb m.length) : node_max m c d i ≠ ⊥ := by
  have hj0 : (if d = true then 1 else 0) < tb m.length := by
    cases d <;> simp at htb ⊢ <;> omega
  have hs : scores m c d i (if d = true then 1 else 0) ≠ ⊥ := by
    unfold scores
    rw [if_neg hi, if_neg (by cases d <;> simp)]
    exact WithBot.coe_ne_bot
  have hle : scores m c d i (if d = true then 1 else 0) ≤ node_max m c d i :=
    le_argmaxFrom (fun j => scores m c d i j) hj0
  intro hb
  rw [hb] at hle
  exact hs (le_bot_iff.mp hle)

theorem node_max_class_bot (m : Tensor) (d : Bool) : node_max m true d 0 = ⊥ := by
  unfold node_max scores
  simp

theorem class_not_in_src (m : Tensor) (rr : ℕ) (d : Bool) (hrlt : rr < ta m.length)
    (htb : (if d = true then 2 else 1) ≤ tb m.length) :
    0 ∉ src_idx m rr true d := by
  intro h0
  have hlen : (edge_idx m true d).length = ta m.length := length_edge_idx m true d
  have hdropne : (edge_idx m true d).drop rr ≠ [] := by
    intro he
    have := List.length_drop rr (edge_idx m true d)
    rw [he, hlen] at this
    simp at this
    omega
  obtain ⟨b, hb⟩ := List.exists_mem_of_ne_nil _ hdropne
  have hsorted : List.Pairwise (fun i j => node_max m true d j ≤ node_max m true d i)
      (edge_idx m true d) := argsortDesc_sorted (node_max m true d) (ta m.length)
  rw [← List.take_append_drop rr (edge_idx m true d), List.pairwise_append] at hsorted
  have hble : node_max m true d b ≤ node_max m true d 0 := hsorted.2.2 0 h0 b hb
  rw [node_max_class_bot] at hble
  have hb0 : b ≠ 0 := by
    intro he
    subst he
    have hnd : ((edge_idx m true d).take rr ++ (edge_idx m true d).drop rr).Nodup := by
      rw [List.take_append_drop]
      exact edge_idx_nodup m true d
    rw [List.nodup_append] at hnd
    exact hnd.2.2 h0 hb
  exact node_max_ne_bot m true d b (by simp [hb0]) htb (le_bot_iff.mp hble)

theorem distill_node_idx_ne_zero (m : Tensor) (c : Bool) (i : ℕ) (hi : ¬(c = true ∧ i = 0))
    (htb : 2 ≤ tb m.length) : node_idx m c true i ≠ 0 := by
  have hmax := node_max_ne_bot m c true i hi (by simp; omega)
  intro h0
  have hval : node_max m c true i = scores m c true i 0 := by
    unfold node_max
    rw [h0]
  have hsc : scores m c true i 0 = ⊥ := by
    unfold scores
    rw [if_neg hi]
    simp
  rw [hval, hsc] at hmax
  exact hmax rfl

theorem clampR_le (t r : ℕ) (c d : Bool) :
    clampR t r c d ≤ (t - protectedCount c d) / 2 := min_le_right _ _

theorem protectedCount_pos_left (d : Bool) : 1 ≤ protectedCount true d := by
  cases d <;> simp [protectedCount]

theorem protectedCount_pos_right (c : Bool) : 1 ≤ protectedCount c true := by
  cases c <;> simp [protectedCount]

theorem protectedCount_both : protectedCount true true = 2 := rfl

/-! Constructor case split. -/

theorem bipartite_soft_matching_zero (m : Tensor) (r : ℕ) (c d : Bool)
    (h : clampR m.length r c d = 0) :
    bipartite_soft_matching m r c d = doNothingOps := by
  unfold bipartite_soft_matching
  simp [h]

theorem bipartite_soft_matching_pos (m : Tensor) (r : ℕ) (c d : Bool)
    (h : clampR m.length r c d ≠ 0) :
    bipartite_soft_matching m r c d =
      { merge := bipMerge m (clampR m.length r c d) c d,
        unmerge := bipUnmerge m (clampR m.length r c d) c d } := by
  unfold bipartite_soft_matching
  simp [h]

/-- C2 (amended: the row count is N minus the clamped r, which equals N - r only
when r already respects the protected-token clamp): for every metric with N
tokens, every r, every flag combination and every value tensor with N rows, the
merge output has exactly N - min(r, (N - protected) / 2) rows; and for r = 0 the
returned merge and unmerge are the identity on every input. -/
theorem bipartite_merge_row_count (m : Tensor) (r : ℕ) (c d : Bool) (mode : Mode) (x : Tensor)
    (hx : x.length = m.length) :
    ((bipartite_soft_matching m r c d).merge mode x).length = m.length - clampR m.length r c d
    ∧ (r = 0 →
        (bipartite_soft_matching m r c d).merge mode x = x
        ∧ (bipartite_soft_matching m r c d).unmerge x = x) := by
  have hta : ta m.length = (m.length + 1) / 2 := rfl
  have htbv : tb m.length = m.length / 2 := rfl
  have hcl := clampR_le m.length r c d
  constructor
  · by_cases h0 : clampR m.length r c d = 0
    · rw [bipartite_soft_matching_zero m r c d h0, h0]
      simp [doNothingOps, do_nothing, hx]
    · rw [bipartite_soft_matching_pos m r c d h0]
      show (bipMerge m (clampR m.length r c d) c d mode x).length = _
      rw [length_bipMerge m _ c d mode x hx, length_unm_idx]
      omega
  · intro hr0
    subst hr0
    have h0 : clampR m.length 0 c d = 0 := by simp [clampR]
    rw [bipartite_soft_matching_zero m 0 c d h0]
    exact ⟨rfl, rfl⟩

/-- C2 witness: the theorem applied at metric [[1],[1],[1],[1]], r = 1, no flags,
x = [[1],[2],[3],[4]]. -/
theorem bipartite_merge_row_count_witness :
    (List.length ([[1],[2],[3],[4]] : Tensor) = List.length ([[1],[1],[1],[1]] : Tensor))
    ∧ (((bipartite_soft_matching [[1],[1],[1],[1]] 1 false false).merge Mode.mean
          [[1],[2],[3],[4]]).length
        = (List.length ([[1],[1],[1],[1]] : Tensor))
            - clampR (List.length ([[1],[1],[1],[1]] : Tensor)) 1 false false
      ∧ ((1 : ℕ) = 0 →
          (bipartite_soft_matching [[1],[1],[1],[1]] 1 false false).merge Mode.mean
              [[1],[2],[3],[4]] = [[1],[2],[3],[4]]
          ∧ (bipartite_soft_matching [[1],[1],[1],[1]] 1 false false).unmerge
              [[1],[2],[3],[4]] = [[1],[2],[3],[4]])) :=
  ⟨rfl, bipartite_merge_row_count [[1],[1],[1],[1]] 1 false false Mode.mean [[1],[2],[3],[4]] rfl⟩

/-- C2 counterexample: N = 4, r = 2 lies in [0, N/2], but with class_token=True
the clamp lowers r to 1, so the merge output has 3 rows, not N - r = 2. -/
theorem bipartite_merge_row_count_counterexample :
    ((bipartite_soft_matching [[1],[1],[1],[1]] 2 true false).merge Mode.mean
        [[1],[2],[3],[4]]).length ≠ 4 - 2 := by decide

/-- C3 (amended: the distill-destination exclusion additionally needs a
destination other than the distillation token to exist, i.e. N/2 at least 2;
at N = 3 every masked score is -inf and the max index falls back to column 0):
with positive clamped r, class_token protects source row 0 from src_idx, and
distill_token keeps destination 0 out of dst_idx whenever 2 ≤ N/2. -/
theorem bipartite_protected_tokens (m : Tensor) (r : ℕ) (c d : Bool)
    (hrpos : 0 < clampR m.length r c d) :
    (c = true → 0 ∉ src_idx m (clampR m.length r c d) c d)
    ∧ (d = true → 2 ≤ tb m.length → 0 ∉ dst_idx m (clampR m.length r c d) c d) := by
  have hta : ta m.length = (m.length + 1) / 2 := rfl
  have htbv : tb m.length = m.length / 2 := rfl
  have hcl := clampR_le m.length r c d
  have hclass : c = true → 0 ∉ src_idx m (clampR m.length r c d) c d := by
    intro hc
    subst hc
    have hp1 : 1 ≤ protectedCount true d := protectedCount_pos_left d
    apply class_not_in_src m _ d
    · omega
    · cases d
      · simp only [if_false, Bool.false_eq_true]
        omega
      · have hp2 : protectedCount true true = 2 := rfl
        simp only [if_true]
        omega
  refine ⟨hclass, ?_⟩
  intro hd htb2 h0
  subst hd
  unfold dst_idx at h0
  obtain ⟨i, hisrc, hni⟩ := List.mem_map.mp h0
  have hine : ¬(c = true ∧ i = 0) := by
    rintro ⟨hc, rfl⟩
    exact hclass hc (hc ▸ hisrc)
  exact distill_node_idx_ne_zero m c i hine htb2 hni

/-- C3 witness: N = 6, r = 1, class and distill both set; the clamp keeps r = 1
and both protections hold. -/
theorem bipartite_protected_tokens_witness :
    0 < clampR (List.length ([[1],[1],[1],[1],[1],[1]] : Tensor)) 1 true true
    ∧ ((true = true →
        0 ∉ src_idx [[1],[1],[1],[1],[1],[1]]
          (clampR (List.length ([[1],[1],[1],[1],[1],[1]] : Tensor)) 1 true true) true true)
      ∧ (true = true → 2 ≤ tb (List.length ([[1],[1],[1],[1],[1],[1]] : Tensor)) →
        0 ∉ dst_idx [[1],[1],[1],[1],[1],[1]]
          (clampR (List.length ([[1],[1],[1],[1],[1],[1]] : Tensor)) 1 true true) true true)) :=
  ⟨by decide, bipartite_protected_tokens [[1],[1],[1],[1],[1],[1]] 1 true true (by decide)⟩

/-- C3 counterexample: N = 3, r = 1, distill_token=True, class_token=False.
The clamp keeps r = 1 > 0 and source row 0 is merged, yet its chosen
destination is index 0, the distillation token. -/
theorem bipartite_protected_tokens_counterexample :
    0 < clampR (List.length ([[1],[1],[1]] : Tensor)) 1 false true
    ∧ src_idx [[1],[1],[1]] 1 false true = [0]
    ∧ 0 ∈ dst_idx [[1],[1],[1]] 1 false true := by decide

/-- C9: with positive clamped r, src_idx and unm_idx together are a permutation
of all source-side indices 0 .. ceil(N/2) - 1, and the three write-index lists
of the bipartite unmerge (odd positions, doubled unm_idx, doubled src_idx)
together are a permutation of all N output positions, so every output row is
written exactly once and no zero-initialized row survives. -/
theorem bipartite_unmerge_write_partition (m : Tensor) (r : ℕ) (c d : Bool)
    (hrpos : 0 < clampR m.length r c d) :
    (src_idx m (clampR m.length r c d) c d ++ unm_idx m (clampR m.length r c d) c d).Perm
      (List.range (ta m.length))
    ∧ ((List.range (tb m.length)).map (fun j => 2 * j + 1)
        ++ (unm_idx m (clampR m.length r c d) c d).map (fun i => 2 * i)
        ++ (src_idx m (clampR m.length r c d) c d).map (fun i => 2 * i)).Perm
      (List.range m.length) := by
  refine ⟨src_unm_append_perm _ _ _ _, ?_⟩
  rw [List.perm_iff_count]
  intro p
  simp only [List.count_append]
  have hA := count_map_double p (unm_idx m (clampR m.length r c d) c d)
  have hE := count_map_double p (src_idx m (clampR m.length r c d) c d)
  have hB := count_map_double_succ p (List.range (tb m.length))
  have hB2 : List.count (p / 2) (List.range (tb m.length))
      = if p / 2 < tb m.length then 1 else 0 := count_range_eq _ _
  rw [hB2] at hB
  have hR := count_range_eq p m.length
  rw [hA, hE, hB, hR]
  have hsum : List.count (p / 2) (src_idx m (clampR m.length r c d) c d)
        + List.count (p / 2) (unm_idx m (clampR m.length r c d) c d)
      = if p / 2 < ta m.length then 1 else 0 := by
    have hperm := (List.perm_iff_count.mp (src_unm_append_perm m (clampR m.length r c d) c d)) (p / 2)
    rw [List.count_append, count_range_eq] at hperm
    exact hperm
  have hta : ta m.length = (m.length + 1) / 2 := rfl
  have htbv : tb m.length = m.length / 2 := rfl
  split_ifs at hsum ⊢ <;> omega

/-- C9 witness: the theorem applied at metric [[1],[1],[1],[1],[1],[1]], r = 2,
no flags. -/
theorem bipartite_unmerge_write_partition_witness :
    0 < clampR (List.length ([[1],[1],[1],[1],[1],[1]] : Tensor)) 2 false false
    ∧ ((src_idx [[1],[1],[1],[1],[1],[1]]
            (clampR (List.length ([[1],[1],[1],[1],[1],[1]] : Tensor)) 2 false false) false false
        ++ unm_idx [[1],[1],[1],[1],[1],[1]]
            (clampR (List.length ([[1],[1],[1],[1],[1],[1]] : Tensor)) 2 false false) false false).Perm
        (List.range (ta (List.length ([[1],[1],[1],[1],[1],[1]] : Tensor))))
      ∧ ((List.range (tb (List.length ([[1],[1],[1],[1],[1],[1]] : Tensor)))).map (fun j => 2 * j + 1)
          ++ (unm_idx [[1],[1],[1],[1],[1],[1]]
              (clampR (List.length ([[1],[1],[1],[1],[1],[1]] : Tensor)) 2 false false) false false).map
            (fun i => 2 * i)
          ++ (src_idx [[1],[1],[1],[1],[1],[1]]
              (clampR (List.length ([[1],[1],[1],[1],[1],[1]] : Tensor)) 2 false false) false false).map
            (fun i => 2 * i)).Perm
        (List.range (List.length ([[1],[1],[1],[1],[1],[1]] : Tensor)))) :=
  ⟨by decide, bipartite_unmerge_write_partition [[1],[1],[1],[1],[1],[1]] 2 false false (by decide)⟩

/-! Facts about the k-ary strategy. -/

theorem kthAIdx_lt (k n : ℕ) (hk : 2 ≤ k) : ∀ p ∈ kthAIdx k n, p < (n / k) * k := by
  intro p hp
  obtain ⟨i, hi, rfl⟩ := List.mem_map.mp hp
  rw [List.mem_range] at hi
  have hk1 : 0 < k - 1 := by omega
  have hg : i / (k - 1) < n / k := (Nat.div_lt_iff_lt_mul hk1).mpr hi
  have hrem : i % (k - 1) < k - 1 := Nat.mod_lt _ hk1
  have h1 : (i / (k - 1)) * k + i % (k - 1) < (i / (k - 1)) * k + k := by omega
  have h2 : (i / (k - 1)) * k + k = (i / (k - 1) + 1) * k := by ring
  have h3 : (i / (k - 1) + 1) * k ≤ (n / k) * k :=
    Nat.mul_le_mul_right k (by omega)
  omega

theorem kthBIdx_lt (k n : ℕ) (hk : 2 ≤ k) : ∀ p ∈ kthBIdx k n, p < (n / k) * k := by
  intro p hp
  obtain ⟨g, hg, rfl⟩ := List.mem_map.mp hp
  rw [List.mem_range] at hg
  have h2 : g * k + k = (g + 1) * k := by ring
  have h3 : (g + 1) * k ≤ (n / k) * k := Nat.mul_le_mul_right k (by omega)
  omega

theorem getD_take {x : Tensor} {t i : ℕ} (h : i < t) (dd : Row) :
    (x.take t).getD i dd = x.getD i dd := by
  rw [List.getD_eq_getElem?_getD, List.getD_eq_getElem?_getD, List.getElem?_take_of_lt h]

theorem gatherRows_take (x : Tensor) (t : ℕ) (idx : List ℕ) (h : ∀ p ∈ idx, p < t) :
    gatherRows (x.take t) idx = gatherRows x idx := by
  unfold gatherRows
  exact List.map_congr_left (fun p hp => getD_take (h p hp) [])

theorem length_ksplitB (k : ℕ) (x : Tensor) : (ksplitB k x).length = x.length / k := by
  simp [ksplitB, gatherRows, kthBIdx]

/-- C7: kth_bipartite_soft_matching with k at least 2 truncates to the largest
multiple of k: the merge output has exactly N / k rows, the merge result only
depends on the first (N / k) * k input rows (the dropped trailing tokens appear
in neither output), and unmerge returns (N / k) * k rows rather than N. -/
theorem kth_truncation (m : Tensor) (k : ℕ) (hk : 2 ≤ k) (mode : Mode) (x y : Tensor)
    (hx : x.length = m.length) (hy : y.length = m.length / k) :
    ((kth_bipartite_soft_matching m k).merge mode x).length = m.length / k
    ∧ (kth_bipartite_soft_matching m k).merge mode x
        = (kth_bipartite_soft_matching m k).merge mode (x.take ((m.length / k) * k))
    ∧ ((kth_bipartite_soft_matching m k).unmerge y).length = (m.length / k) * k := by
  have hkk : ¬ k ≤ 1 := by omega
  have hops : kth_bipartite_soft_matching m k
      = { merge := kthMerge m k, unmerge := kthUnmerge m k } := by
    unfold kth_bipartite_soft_matching
    simp [hkk]
  rw [hops]
  have htr : (x.take (m.length / k * k)).length = m.length / k * k := by
    rw [List.length_take]
    have : m.length / k * k ≤ m.length := Nat.div_mul_le_self _ _
    omega
  have hdiv : m.length / k * k / k = m.length / k :=
    Nat.mul_div_cancel _ (by omega)
  refine ⟨?_, ?_, ?_⟩
  · show (kthMerge m k mode x).length = _
    unfold kthMerge
    rw [length_scatterReduce, length_ksplitB, hx]
  · show kthMerge m k mode x = kthMerge m k mode (x.take (m.length / k * k))
    unfold kthMerge ksplitA ksplitB
    rw [htr]
    have haidx : kthAIdx k (m.length / k * k) = kthAIdx k x.length := by
      unfold kthAIdx
      rw [hdiv, hx]
    have hbidx : kthBIdx k (m.length / k * k) = kthBIdx k x.length := by
      unfold kthBIdx
      rw [hdiv, hx]
    rw [haidx, hbidx,
      gatherRows_take x (m.length / k * k) (kthAIdx k x.length)
        (fun p hp => by have hb := kthAIdx_lt k x.length hk p hp; rw [hx] at hb; exact hb),
      gatherRows_take x (m.length / k * k) (kthBIdx k x.length)
        (fun p hp => by have hb := kthBIdx_lt k x.length hk p hp; rw [hx] at hb; exact hb)]
  · show (kthUnmerge m k y).length = _
    unfold kthUnmerge
    rw [List.length_map, List.length_range]
    unfold kthR
    rw [Nat.mul_div_cancel _ (show 0 < k - 1 by omega)]

/-- C7 witness: the theorem applied at a 12-token metric with k = 5: the merge
output keeps 2 rows, merge ignores the 2 dropped trailing tokens, and unmerge
returns 10 rows. -/
theorem kth_truncation_witness :
    2 ≤ 5
    ∧ (((kth_bipartite_soft_matching
          [[1],[1],[1],[1],[1],[1],[1],[1],[1],[1],[1],[1]] 5).merge Mode.mean
          [[1],[2],[3],[4],[5],[6],[7],[8],[9],[10],[11],[12]]).length
        = List.length ([[1],[1],[1],[1],[1],[1],[1],[1],[1],[1],[1],[1]] : Tensor) / 5
      ∧ (kth_bipartite_soft_matching
            [[1],[1],[1],[1],[1],[1],[1],[1],[1],[1],[1],[1]] 5).merge Mode.mean
            [[1],[2],[3],[4],[5],[6],[7],[8],[9],[10],[11],[12]]
          = (kth_bipartite_soft_matching
              [[1],[1],[1],[1],[1],[1],[1],[1],[1],[1],[1],[1]] 5).merge Mode.mean
              ([[1],[2],[3],[4],[5],[6],[7],[8],[9],[10],[11],[12]].take
                ((List.length ([[1],[1],[1],[1],[1],[1],[1],[1],[1],[1],[1],[1]] : Tensor) / 5) * 5))
      ∧ ((kth_bipartite_soft_matching
            [[1],[1],[1],[1],[1],[1],[1],[1],[1],[1],[1],[1]] 5).unmerge [[1],[2]]).length
          = (List.length ([[1],[1],[1],[1],[1],[1],[1],[1],[1],[1],[1],[1]] : Tensor) / 5) * 5) :=
  ⟨by omega, kth_truncation [[1],[1],[1],[1],[1],[1],[1],[1],[1],[1],[1],[1]] 5 (by omega)
    Mode.mean [[1],[2],[3],[4],[5],[6],[7],[8],[9],[10],[11],[12]] [[1],[2]] rfl rfl⟩

/-- C8: whenever the effective reduction is void (clamped r = 0 for bipartite,
k at most 1 for k-ary, r = 0 for random) the constructor returns the identity
operator pair: merge and unmerge return their input unchanged for every input
tensor and every mode. -/
theorem void_reduction_identity (m : Tensor) (r k : ℕ) (perm : List ℕ) (c d : Bool)
    (mode : Mode) (x : Tensor) :
    (clampR m.length r c d = 0 →
      (bipartite_soft_matching m r c d).merge mode x = x
      ∧ (bipartite_soft_matching m r c d).unmerge x = x)
    ∧ (k ≤ 1 →
      (kth_bipartite_soft_matching m k).merge mode x = x
      ∧ (kth_bipartite_soft_matching m k).unmerge x = x)
    ∧ (r = 0 →
      (random_bipartite_soft_matching perm m r).merge mode x = x
      ∧ (random_bipartite_soft_matching perm m r).unmerge x = x) := by
  refine ⟨fun h0 => ?_, fun hk => ?_, fun hr => ?_⟩
  · rw [bipartite_soft_matching_zero m r c d h0]
    exact ⟨rfl, rfl⟩
  · unfold kth_bipartite_soft_matching
    rw [if_pos hk]
    exact ⟨rfl, rfl⟩
  · unfold random_bipartite_soft_matching
    rw [if_pos hr]
    exact ⟨rfl, rfl⟩

/-- C8 witness: at N = 4 a request of r = 1 with both protected tokens clamps
to 0, k = 1 and random r = 0 are void as well; all three pairs act as the
identity on a concrete tensor. -/
theorem void_reduction_identity_witness :
    (bipartite_soft_matching [[1],[1],[1]] 1 true true).merge Mode.mean
        [[5],[6],[7]] = [[5],[6],[7]]
    ∧ (kth_bipartite_soft_matching [[1],[1],[1]] 1).merge Mode.mean
        [[5],[6],[7]] = [[5],[6],[7]]
    ∧ (random_bipartite_soft_matching [0,1,2] [[1],[1],[1]] 0).merge Mode.mean
        [[5],[6],[7]] = [[5],[6],[7]] :=
  ⟨((void_reduction_identity [[1],[1],[1]] 1 1 [0,1,2] true true Mode.mean
      [[5],[6],[7]]).1 (by decide)).1,
   ((void_reduction_identity [[1],[1],[1]] 1 1 [0,1,2] true true Mode.mean
      [[5],[6],[7]]).2.1 (by omega)).1,
   ((void_reduction_identity [[1],[1],[1]] 0 1 [0,1,2] true true Mode.mean
      [[5],[6],[7]]).2.2 rfl).1⟩

/-! The concrete tie-break scenario of the spec. -/

theorem tensor_four (x : Tensor) (hx : x.length = 4) : ∃ a b c2 d2, x = [a, b, c2, d2] := by
  rcases x with _ | ⟨a, x⟩
  · simp at hx
  rcases x with _ | ⟨b, x⟩
  · simp at hx
  rcases x with _ | ⟨c2, x⟩
  · simp at hx
  rcases x with _ | ⟨d2, x⟩
  · simp at hx
  rcases x with _ | ⟨e, x⟩
  · exact ⟨a, b, c2, d2, rfl⟩
  · simp at hx

theorem concrete4_norm : normalizeRows [[1,0],[1,0],[0,1],[0,1]] = [[1,0],[1,0],[0,1],[0,1]] := by
  norm_num [normalizeRows, dot, ratSqrt, Rat.num_one, Rat.den_one]

theorem concrete4_node_idx_zero : node_idx [[1,0],[1,0],[0,1],[0,1]] false false 0 = 0 := by
  norm_num [node_idx, argmaxFrom, tb, scores, concrete4_norm, evens, odds, ta, dot,
    List.range_succ]

theorem concrete4_node_idx_one : node_idx [[1,0],[1,0],[0,1],[0,1]] false false 1 = 1 := by
  norm_num [node_idx, argmaxFrom, tb, scores, concrete4_norm, evens, odds, ta, dot,
    List.range_succ]

theorem concrete4_node_max_zero :
    node_max [[1,0],[1,0],[0,1],[0,1]] false false 0 = ((1 : ℚ) : WithBot ℚ) := by
  norm_num [node_max, concrete4_node_idx_zero, scores, concrete4_norm, evens, odds, ta, tb, dot,
    List.range_succ]

theorem concrete4_node_max_one :
    node_max [[1,0],[1,0],[0,1],[0,1]] false false 1 = ((1 : ℚ) : WithBot ℚ) := by
  norm_num [node_max, concrete4_node_idx_one, scores, concrete4_norm, evens, odds, ta, tb, dot,
    List.range_succ]

theorem concrete4_edge : edge_idx [[1,0],[1,0],[0,1],[0,1]] false false = [0, 1] := by
  norm_num [edge_idx, argsortDesc, ta, List.insertionSort, List.orderedInsert, List.range_succ,
    concrete4_node_max_zero, concrete4_node_max_one]

theorem concrete4_src : src_idx [[1,0],[1,0],[0,1],[0,1]] 1 false false = [0] := by
  simp [src_idx, concrete4_edge]

theorem concrete4_unm : unm_idx [[1,0],[1,0],[0,1],[0,1]] 1 false false = [1] := by
  simp [unm_idx, concrete4_edge]

theorem concrete4_dst : dst_idx [[1,0],[1,0],[0,1],[0,1]] 1 false false = [0] := by
  simp [dst_idx, concrete4_src, concrete4_node_idx_zero]

theorem concrete4_merge (a b c2 d2 : Row) :
    (bipartite_soft_matching [[1,0],[1,0],[0,1],[0,1]] 1 false false).merge Mode.mean
        [a, b, c2, d2]
      = [c2, (rowAdd b a).map (fun q => q / 2), d2] := by
  rw [bipartite_soft_matching_pos _ 1 false false (by decide)]
  show bipMerge _ 1 false false Mode.mean [a, b, c2, d2] = _
  unfold bipMerge
  rw [concrete4_unm, concrete4_src, concrete4_dst]
  norm_num [evens, odds, ta, tb, gatherRows, scatterReduce, contribTo, applyMode,
    List.range_succ, List.mapIdx_cons, List.mapIdx_nil, distillCat]

/-- C4: on the concrete metric [[1,0],[1,0],[0,1],[0,1]] with r = 1 and no
protected tokens, both A rows best-match with score 1 (A row 0 with B column 0,
A row 1 with B column 1), the stable descending sort breaks the exact tie in
favour of A row 0, so src_idx = [0], dst_idx = [0], unm_idx = [1], and for
every 4-row value tensor x, merge(x, mean) returns exactly the 3 rows
[value of A row 1 (position 2), mean of positions 1 and 0, value of B row 1
(position 3)] in that order. -/
theorem bipartite_concrete_scenario :
    node_idx [[1,0],[1,0],[0,1],[0,1]] false false 0 = 0
    ∧ node_idx [[1,0],[1,0],[0,1],[0,1]] false false 1 = 1
    ∧ node_max [[1,0],[1,0],[0,1],[0,1]] false false 0 = ((1 : ℚ) : WithBot ℚ)
    ∧ node_max [[1,0],[1,0],[0,1],[0,1]] false false 1 = ((1 : ℚ) : WithBot ℚ)
    ∧ src_idx [[1,0],[1,0],[0,1],[0,1]] 1 false false = [0]
    ∧ dst_idx [[1,0],[1,0],[0,1],[0,1]] 1 false false = [0]
    ∧ unm_idx [[1,0],[1,0],[0,1],[0,1]] 1 false false = [1]
    ∧ ∀ x : Tensor, x.length = 4 →
        (bipartite_soft_matching [[1,0],[1,0],[0,1],[0,1]] 1 false false).merge Mode.mean x
          = [x.getD 2 [],
             (rowAdd (x.getD 1 []) (x.getD 0 [])).map (fun q => q / 2),
             x.getD 3 []] := by
  refine ⟨concrete4_node_idx_zero, concrete4_node_idx_one, concrete4_node_max_zero,
    concrete4_node_max_one, concrete4_src, concrete4_dst, concrete4_unm, ?_⟩
  intro x hx
  obtain ⟨a, b, c2, d2, rfl⟩ := tensor_four x hx
  exact concrete4_merge a b c2 d2

theorem getD_map_at {α β : Type} (f : α → β) (l : List α) {k : ℕ} (hk : k < l.length)
    (d₁ : α) (d₂ : β) : (l.map f).getD k d₂ = f (l.getD k d₁) := by
  rw [List.getD_eq_getElem _ _ (by simpa using hk), List.getD_eq_getElem _ _ hk,
    List.getElem_map]

theorem fusedRow_eq_dstGroups (m : Tensor) (rr : ℕ) (c d : Bool) (x : Tensor) {j : ℕ}
    (hj : j < tb m.length) :
    fusedRow m rr c d x j
      = reduceRows Mode.mean (((dstGroups m rr c d).getD j []).map (fun q => x.getD q [])) := by
  unfold dstGroups fusedRow
  rw [getD_map_at _ _ (by simpa using hj) 0 []]
  have hrg : (List.range (tb m.length)).getD j 0 = j := by
    rw [List.getD_eq_getElem _ _ (by simpa using hj), List.getElem_range]
  rw [hrg, List.map_cons, List.map_map]
  rfl

theorem fusedRow_untargeted (m : Tensor) (rr : ℕ) (c d : Bool) (x : Tensor) {j : ℕ}
    (hj : j ∉ dst_idx m rr c d) :
    fusedRow m rr c d x j = x.getD (2 * j + 1) [] := by
  unfold fusedRow
  have hnil : (src_idx m rr c d).filter (fun i => node_idx m c d i == j) = [] := by
    rw [List.filter_eq_nil_iff]
    intro i hi hij
    exact hj (List.mem_map.mpr ⟨i, hi, by simpa using hij⟩)
  rw [hnil, List.map_nil, reduceRows_single]

theorem bip_roundtrip_parts (m : Tensor) (rr : ℕ) (c : Bool) (x : Tensor)
    (hx : x.length = m.length) (hrr : rr ≤ tb m.length) :
    (bipUnmerge m rr c false (bipMerge m rr c false Mode.mean x)).length = m.length
    ∧ (∀ i ∈ unm_idx m rr c false,
        (bipUnmerge m rr c false (bipMerge m rr c false Mode.mean x)).getD (2 * i) []
          = x.getD (2 * i) [])
    ∧ (∀ j, j < tb m.length →
        (bipUnmerge m rr c false (bipMerge m rr c false Mode.mean x)).getD (2 * j + 1) []
          = fusedRow m rr c false x j)
    ∧ (∀ i ∈ src_idx m rr c false,
        (bipUnmerge m rr c false (bipMerge m rr c false Mode.mean x)).getD (2 * i) []
          = fusedRow m rr c false x (node_idx m c false i))
    ∧ (∀ j, j < tb m.length → j ∉ dst_idx m rr c false →
        (bipUnmerge m rr c false (bipMerge m rr c false Mode.mean x)).getD (2 * j + 1) []
          = x.getD (2 * j + 1) []) := by
  have hta : ta m.length = (m.length + 1) / 2 := rfl
  have htbv : tb m.length = m.length / 2 := rfl
  set y := bipMerge m rr c false Mode.mean x with hy
  have hysplit : y = gatherRows (evens x) (unm_idx m rr c false)
      ++ scatterReduce Mode.mean (odds x) (dst_idx m rr c false)
          (gatherRows (evens x) (src_idx m rr c false)) := rfl
  set unmT := gatherRows (evens x) (unm_idx m rr c false) with hunmT
  set dstR := scatterReduce Mode.mean (odds x) (dst_idx m rr c false)
      (gatherRows (evens x) (src_idx m rr c false)) with hdstR
  have hunmTlen : unmT.length = (unm_idx m rr c false).length := length_gatherRows _ _
  have hdstRlen : dstR.length = tb m.length := by
    rw [hdstR, length_scatterReduce, length_odds, hx]
  have htake : y.take (unm_idx m rr c false).length = unmT := by
    rw [hysplit, ← hunmTlen, List.take_left]
  have hdrop : y.drop (unm_idx m rr c false).length = dstR := by
    rw [hysplit, ← hunmTlen, List.drop_left]
  have hout : bipUnmerge m rr c false y
      = scatterAssign
          (scatterAssign
            (scatterAssign
              (List.replicate m.length (List.replicate (y.headD []).length (0 : ℚ)))
              ((List.range dstR.length).map (fun j => 2 * j + 1)) dstR)
            ((unm_idx m rr c false).map (fun i => 2 * i)) unmT)
          ((src_idx m rr c false).map (fun i => 2 * i)) (gatherRows dstR (dst_idx m rr c false)) := by
    show scatterAssign _ _ _ = _
    rw [htake, hdrop]
  -- collector fact for destination rows
  have hcol : ∀ j, j < tb m.length → dstR.getD j [] = fusedRow m rr c false x j := by
    intro j hj
    have hfa := bip_dst_part m rr c false Mode.mean x hx
    have hjlen : j < (scatterReduce Mode.mean (odds x) (dst_idx m rr c false)
        (gatherRows (evens x) (src_idx m rr c false))).length := by
      rw [length_scatterReduce, length_odds, hx]
      exact hj
    have := forall₂_getD hfa hjlen [] []
    rw [fusedRow_eq_dstGroups m rr c false x hj]
    exact this
  -- nodup and membership facts
  have hoddW_nodup : ((List.range dstR.length).map (fun j => 2 * j + 1)).Nodup :=
    (List.nodup_range _).map (fun a b hab => by
      have h2 : 2 * a + 1 = 2 * b + 1 := hab
      omega)
  have hunmW_nodup : ((unm_idx m rr c false).map (fun i => 2 * i)).Nodup :=
    (unm_idx_nodup m rr c false).map (fun a b hab => by
      have h2 : 2 * a = 2 * b := hab
      omega)
  have hsrcW_nodup : ((src_idx m rr c false).map (fun i => 2 * i)).Nodup :=
    (src_idx_nodup m rr c false).map (fun a b hab => by
      have h2 : 2 * a = 2 * b := hab
      omega)
  have hodd_not_srcW : ∀ j : ℕ, 2 * j + 1 ∉ (src_idx m rr c false).map (fun i => 2 * i) := by
    intro j hmem
    obtain ⟨i, _, hi⟩ := List.mem_map.mp hmem
    omega
  have hodd_not_unmW : ∀ j : ℕ, 2 * j + 1 ∉ (unm_idx m rr c false).map (fun i => 2 * i) := by
    intro j hmem
    obtain ⟨i, _, hi⟩ := List.mem_map.mp hmem
    omega
  have hZlen : ∀ ch : ℕ, (List.replicate m.length (List.replicate ch (0 : ℚ))).length
      = m.length := fun ch => List.length_replicate _ _
  refine ⟨?_, ?_, ?_, ?_, ?_⟩
  · rw [hout, length_scatterAssign, length_scatterAssign, length_scatterAssign, hZlen]
  · -- unmerged even rows
    intro i hi
    obtain ⟨k, hk, hik⟩ := List.getElem_of_mem hi
    have hkD : (unm_idx m rr c false).getD k 0 = i := by
      rw [List.getD_eq_getElem _ _ hk, hik]
    have hilt : i < ta m.length := unm_idx_subset i hi
    have h2i_not_srcW : 2 * i ∉ (src_idx m rr c false).map (fun j => 2 * j) := by
      intro hmem
      obtain ⟨i2, hmem2, hi2⟩ := List.mem_map.mp hmem
      have : i2 = i := by omega
      exact src_unm_disjoint m rr c false i2 hmem2 (this ▸ hi)
    rw [hout, getD_scatterAssign_not_mem h2i_not_srcW]
    have hkW : ((unm_idx m rr c false).map (fun j => 2 * j)).getD k 0
        = 2 * i := by
      rw [getD_map_at _ _ hk 0 0, hkD]
    nth_rewrite 1 [← hkW]
    rw [getD_scatterAssign_mem hunmW_nodup (by simpa using hk) (by rw [hunmTlen]; exact hk)
      (by rw [hkW, length_scatterAssign, hZlen]; omega) []]
    rw [hunmT, getD_gatherRows _ hk [], hkD, getD_evens x (by rw [hx]; exact hilt)]
  · -- destination odd rows hold the fused value
    intro j hj
    rw [hout, getD_scatterAssign_not_mem (hodd_not_srcW j), getD_scatterAssign_not_mem (hodd_not_unmW j)]
    have hjW : ((List.range dstR.length).map (fun t => 2 * t + 1)).getD j 0 = 2 * j + 1 :=
      getD_map_range _ (by rw [hdstRlen]; exact hj) _
    rw [← hjW]
    rw [getD_scatterAssign_mem hoddW_nodup (by rw [List.length_map, List.length_range, hdstRlen]; exact hj)
      (by rw [hdstRlen]; exact hj) (by rw [hjW, hZlen]; omega) []]
    exact hcol j hj
  · -- merged even rows hold the fused value of their destination
    intro i hi
    have hrpos : 0 < rr := by
      rcases Nat.eq_zero_or_pos rr with h0 | h0
      · rw [h0] at hi
        simp [src_idx, List.take_zero] at hi
      · exact h0
    have htb : 0 < tb m.length := by omega
    obtain ⟨k, hk, hik⟩ := List.getElem_of_mem hi
    have hkD : (src_idx m rr c false).getD k 0 = i := by
      rw [List.getD_eq_getElem _ _ hk, hik]
    have hilt : i < ta m.length := src_idx_subset i hi
    rw [hout]
    have hkW : ((src_idx m rr c false).map (fun j => 2 * j)).getD k 0 = 2 * i := by
      rw [getD_map_at _ _ hk 0 0, hkD]
    rw [← hkW]
    rw [getD_scatterAssign_mem hsrcW_nodup (by simpa using hk)
      (by rw [length_gatherRows]; simpa [dst_idx] using hk)
      (by rw [hkW, length_scatterAssign, length_scatterAssign, hZlen]; omega) []]
    have hdk : (dst_idx m rr c false).getD k 0 = node_idx m c false i := by
      unfold dst_idx
      rw [getD_map_at _ _ hk 0 0, hkD]
    rw [getD_gatherRows _ (by simpa [dst_idx] using hk) [], hdk]
    exact hcol _ (node_idx_lt m c false i htb)
  · -- untargeted odd rows are restored exactly
    intro j hj hnd
    have h3 : (bipUnmerge m rr c false y).getD (2 * j + 1) [] = fusedRow m rr c false x j := by
      rw [hout, getD_scatterAssign_not_mem (hodd_not_srcW j), getD_scatterAssign_not_mem (hodd_not_unmW j)]
      have hjW : ((List.range dstR.length).map (fun t => 2 * t + 1)).getD j 0 = 2 * j + 1 :=
        getD_map_range _ (by rw [hdstRlen]; exact hj) _
      rw [← hjW]
      rw [getD_scatterAssign_mem hoddW_nodup (by rw [List.length_map, List.length_range, hdstRlen]; exact hj)
        (by rw [hdstRlen]; exact hj) (by rw [hjW, hZlen]; omega) []]
      exact hcol j hj
    rw [h3, fusedRow_untargeted m rr c false x hnd]

theorem gatherRows_eq_range_map (x : Tensor) (idx : List ℕ) :
    gatherRows x idx = (List.range idx.length).map (fun k => x.getD (idx.getD k 0) []) := by
  apply List.ext_getElem
  · simp [gatherRows]
  · intro i h1 h2
    have hi : i < idx.length := by simpa [gatherRows] using h1
    simp only [gatherRows, List.getElem_map, List.getElem_range]
    rw [List.getD_eq_getElem _ _ hi]

theorem fusedRandRow_untargeted (perm : List ℕ) (m : Tensor) (r : ℕ) (x : Tensor) {j : ℕ}
    (hj : j ∉ randDstIdx perm m r) :
    fusedRandRow perm m r x j = x.getD ((randBIdx perm r).getD j 0) [] := by
  unfold fusedRandRow
  have hnil : (List.range r).filter (fun k => (randDstIdx perm m r).getD k 0 == j) = [] := by
    rw [List.filter_eq_nil_iff]
    intro k hk hkj
    have hkr : k < r := List.mem_range.mp hk
    apply hj
    have : (randDstIdx perm m r).getD k 0 = j := by simpa using hkj
    rw [← this]
    unfold randDstIdx
    rw [getD_map_range _ hkr]
    exact List.mem_map.mpr ⟨k, List.mem_range.mpr hkr, rfl⟩
  rw [hnil, List.map_nil, reduceRows_single]

theorem rand_roundtrip_parts (perm : List ℕ) (m : Tensor) (r : ℕ) (x : Tensor)
    (hperm : perm.Perm (List.range m.length)) (hx : x.length = m.length)
    (hr2 : r < m.length) :
    (randUnmerge perm m r (randMerge perm m r Mode.mean x)).length = m.length
    ∧ (∀ j, j < m.length - r →
        (randUnmerge perm m r (randMerge perm m r Mode.mean x)).getD
            ((randBIdx perm r).getD j 0) []
          = fusedRandRow perm m r x j)
    ∧ (∀ k, k < r →
        (randUnmerge perm m r (randMerge perm m r Mode.mean x)).getD
            ((randAIdx perm r).getD k 0) []
          = fusedRandRow perm m r x ((randDstIdx perm m r).getD k 0))
    ∧ (∀ j, j < m.length - r → j ∉ randDstIdx perm m r →
        (randUnmerge perm m r (randMerge perm m r Mode.mean x)).getD
            ((randBIdx perm r).getD j 0) []
          = x.getD ((randBIdx perm r).getD j 0) []) := by
  have hpl : perm.length = m.length := by
    rw [hperm.length_eq, List.length_range]
  have hpnd : perm.Nodup := hperm.symm.nodup (List.nodup_range _)
  have ha_len : (randAIdx perm r).length = r := by
    unfold randAIdx
    rw [List.length_take, hpl]
    omega
  have hb_len : (randBIdx perm r).length = m.length - r := by
    unfold randBIdx
    rw [List.length_drop, hpl]
  have hd_len : (randDstIdx perm m r).length = r := by
    unfold randDstIdx
    rw [List.length_map, List.length_range]
  have hmem_lt : ∀ v ∈ perm, v < m.length := fun v hv =>
    List.mem_range.mp (hperm.mem_iff.mp hv)
  have ha_nodup : (randAIdx perm r).Nodup :=
    List.Nodup.sublist (List.take_sublist _ _) hpnd
  have hb_nodup : (randBIdx perm r).Nodup :=
    List.Nodup.sublist (List.drop_sublist _ _) hpnd
  have hab_disj : ∀ v ∈ randAIdx perm r, v ∉ randBIdx perm r := by
    have hnd : (perm.take r ++ perm.drop r).Nodup := by
      rw [List.take_append_drop]
      exact hpnd
    rw [List.nodup_append] at hnd
    exact fun v hv hvb => hnd.2.2 hv hvb
  set y := randMerge perm m r Mode.mean x with hy
  have hysplit : y = scatterReduce Mode.mean (gatherRows x (randBIdx perm r))
      (randDstIdx perm m r) (gatherRows x (randAIdx perm r)) := rfl
  have hylen : y.length = m.length - r := by
    rw [hysplit, length_scatterReduce, length_gatherRows, hb_len]
  have hdfun : ∀ k, k < r → (randDstIdx perm m r).getD k 0
      = argmaxFrom (fun j => randScores perm m r k j) (m.length - r) := by
    intro k hk
    unfold randDstIdx
    rw [getD_map_range _ hk]
  have hdlt : ∀ k, k < r → (randDstIdx perm m r).getD k 0 < m.length - r := by
    intro k hk
    rw [hdfun k hk]
    exact argmaxFrom_lt _ (by omega)
  -- the collector fact for the random merge
  have hcol : ∀ j, j < m.length - r → y.getD j [] = fusedRandRow perm m r x j := by
    intro j hj
    rw [hysplit, getD_scatterReduce (by rw [length_gatherRows, hb_len]; exact hj) []]
    rw [getD_gatherRows _ (by rw [hb_len]; exact hj) []]
    have hgr : gatherRows x (randAIdx perm r)
        = (List.range r).map (fun k => x.getD ((randAIdx perm r).getD k 0) []) := by
      rw [gatherRows_eq_range_map, ha_len]
    have hdidx : randDstIdx perm m r
        = (List.range r).map (fun k => argmaxFrom (fun j => randScores perm m r k j)
            (m.length - r)) := rfl
    rw [hgr, hdidx, contribTo_map_pair]
    unfold fusedRandRow
    rw [reduceRows_cons]
    congr 1
    apply congrArg
    apply List.filter_congr
    intro k hk
    have hkr : k < r := List.mem_range.mp hk
    rw [hdfun k hkr]
  have hout : randUnmerge perm m r y
      = scatterAssign
          (scatterAssign
            (List.replicate m.length (List.replicate (y.headD []).length (0 : ℚ)))
            (randAIdx perm r) (gatherRows y (randDstIdx perm m r)))
          (randBIdx perm r) y := rfl
  have hblt : ∀ j, j < m.length - r → (randBIdx perm r).getD j 0 < m.length := by
    intro j hj
    have hjb : j < (randBIdx perm r).length := by rw [hb_len]; exact hj
    rw [List.getD_eq_getElem _ _ hjb]
    exact hmem_lt _ (List.drop_subset _ _ (List.getElem_mem _))
  have halt : ∀ k, k < r → (randAIdx perm r).getD k 0 < m.length := by
    intro k hk
    have hka : k < (randAIdx perm r).length := by rw [ha_len]; exact hk
    rw [List.getD_eq_getElem _ _ hka]
    exact hmem_lt _ (List.take_subset _ _ (List.getElem_mem _))
  have hread_b : ∀ j, j < m.length - r →
      (randUnmerge perm m r y).getD ((randBIdx perm r).getD j 0) [] = y.getD j [] := by
    intro j hj
    rw [hout]
    rw [getD_scatterAssign_mem hb_nodup (by rw [hb_len]; exact hj)
      (by rw [hylen]; exact hj)
      (by rw [length_scatterAssign, List.length_replicate]; exact hblt j hj) []]
  refine ⟨?_, ?_, ?_, ?_⟩
  · rw [hout, length_scatterAssign, length_scatterAssign, List.length_replicate]
  · intro j hj
    rw [hread_b j hj]
    exact hcol j hj
  · intro k hk
    rw [hout]
    have hnb : (randAIdx perm r).getD k 0 ∉ randBIdx perm r := by
      apply hab_disj
      have hka : k < (randAIdx perm r).length := by rw [ha_len]; exact hk
      rw [List.getD_eq_getElem _ _ hka]
      exact List.getElem_mem _
    rw [getD_scatterAssign_not_mem hnb]
    rw [getD_scatterAssign_mem ha_nodup (by rw [ha_len]; exact hk)
      (by rw [length_gatherRows, hd_len]; exact hk)
      (by rw [List.length_replicate]; exact halt k hk) []]
    rw [getD_gatherRows _ (by rw [hd_len]; exact hk) []]
    exact hcol _ (hdlt k hk)
  · intro j hj hnd
    rw [hread_b j hj, hcol j hj, fusedRandRow_untargeted perm m r x hnd]

theorem random_bipartite_soft_matching_pos (perm : List ℕ) (m : Tensor) (r : ℕ)
    (h : r ≠ 0) :
    random_bipartite_soft_matching perm m r
      = { merge := randMerge perm m r, unmerge := randUnmerge perm m r } := by
  unfold random_bipartite_soft_matching
  simp [h]

/-- C1 (amended: for the bipartite strategy the law needs distill_token=False;
with distill_token=True merge interleaves its output rows but unmerge splits
its input at a flat boundary, and an originally-unmerged row comes back
changed, see the counterexample): for the bipartite (any class_token) and
random strategies with positive reduction count, unmerge(merge(x, mean))
returns an N-token tensor in which every originally-unmerged row (kept
source rows and untargeted destinations) equals its original value exactly,
and every row that took part in a merge holds the fused mean value of its
merge group, replicated at the destination position and at every merged
source position of that group. -/
theorem bipartite_random_roundtrip
    (m : Tensor) (r : ℕ) (c : Bool) (x : Tensor)
    (perm : List ℕ) (m2 : Tensor) (r2 : ℕ) (x2 : Tensor)
    (hx : x.length = m.length) (hrpos : 0 < clampR m.length r c false)
    (hperm : perm.Perm (List.range m2.length)) (hx2 : x2.length = m2.length)
    (hr1 : 0 < r2) (hr2 : r2 < m2.length) :
    (((bipartite_soft_matching m r c false).unmerge
        ((bipartite_soft_matching m r c false).merge Mode.mean x)).length = m.length
    ∧ (∀ i ∈ unm_idx m (clampR m.length r c false) c false,
        ((bipartite_soft_matching m r c false).unmerge
            ((bipartite_soft_matching m r c false).merge Mode.mean x)).getD (2 * i) []
          = x.getD (2 * i) [])
    ∧ (∀ j, j < tb m.length →
        ((bipartite_soft_matching m r c false).unmerge
            ((bipartite_soft_matching m r c false).merge Mode.mean x)).getD (2 * j + 1) []
          = fusedRow m (clampR m.length r c false) c false x j)
    ∧ (∀ i ∈ src_idx m (clampR m.length r c false) c false,
        ((bipartite_soft_matching m r c false).unmerge
            ((bipartite_soft_matching m r c false).merge Mode.mean x)).getD (2 * i) []
          = fusedRow m (clampR m.length r c false) c false x (node_idx m c false i))
    ∧ (∀ j, j < tb m.length → j ∉ dst_idx m (clampR m.length r c false) c false →
        ((bipartite_soft_matching m r c false).unmerge
            ((bipartite_soft_matching m r c false).merge Mode.mean x)).getD (2 * j + 1) []
          = x.getD (2 * j + 1) []))
    ∧ (((random_bipartite_soft_matching perm m2 r2).unmerge
        ((random_bipartite_soft_matching perm m2 r2).merge Mode.mean x2)).length = m2.length
    ∧ (∀ j, j < m2.length - r2 →
        ((random_bipartite_soft_matching perm m2 r2).unmerge
            ((random_bipartite_soft_matching perm m2 r2).merge Mode.mean x2)).getD
            ((randBIdx perm r2).getD j 0) []
          = fusedRandRow perm m2 r2 x2 j)
    ∧ (∀ k, k < r2 →
        ((random_bipartite_soft_matching perm m2 r2).unmerge
            ((random_bipartite_soft_matching perm m2 r2).merge Mode.mean x2)).getD
            ((randAIdx perm r2).getD k 0) []
          = fusedRandRow perm m2 r2 x2 ((randDstIdx perm m2 r2).getD k 0))
    ∧ (∀ j, j < m2.length - r2 → j ∉ randDstIdx perm m2 r2 →
        ((random_bipartite_soft_matching perm m2 r2).unmerge
            ((random_bipartite_soft_matching perm m2 r2).merge Mode.mean x2)).getD
            ((randBIdx perm r2).getD j 0) []
          = x2.getD ((randBIdx perm r2).getD j 0) [])) := by
  constructor
  · rw [bipartite_soft_matching_pos m r c false (by omega)]
    have hrr : clampR m.length r c false ≤ tb m.length := by
      have h1 := clampR_le m.length r c false
      have h2 : tb m.length = m.length / 2 := rfl
      omega
    exact bip_roundtrip_parts m (clampR m.length r c false) c x hx hrr
  · rw [random_bipartite_soft_matching_pos perm m2 r2 (by omega)]
    exact rand_roundtrip_parts perm m2 r2 x2 hperm hx2 hr2

/-- C1 witness: the theorem applied at a 6-token metric with r = 2, no flags,
and a random split of a 4-token metric along the permutation [2,0,3,1] with
r = 1. -/
theorem bipartite_random_roundtrip_witness :
    (List.length ([[1],[2],[3],[4],[5],[6]] : Tensor)
        = List.length ([[1],[1],[1],[1],[1],[1]] : Tensor)
      ∧ 0 < clampR (List.length ([[1],[1],[1],[1],[1],[1]] : Tensor)) 2 false false
      ∧ ([2,0,3,1] : List ℕ).Perm (List.range (List.length ([[1],[1],[1],[1]] : Tensor)))
      ∧ List.length ([[9],[8],[7],[6]] : Tensor) = List.length ([[1],[1],[1],[1]] : Tensor)
      ∧ 0 < 1
      ∧ 1 < List.length ([[1],[1],[1],[1]] : Tensor))
    ∧ (((bipartite_soft_matching [[1],[1],[1],[1],[1],[1]] 2 false false).unmerge
        ((bipartite_soft_matching [[1],[1],[1],[1],[1],[1]] 2 false false).merge Mode.mean
          [[1],[2],[3],[4],[5],[6]])).length
        = List.length ([[1],[1],[1],[1],[1],[1]] : Tensor)) := by
  refine ⟨⟨rfl, by decide, by decide, rfl, by decide, by decide⟩, ?_⟩
  exact (bipartite_random_roundtrip [[1],[1],[1],[1],[1],[1]] 2 false [[1],[2],[3],[4],[5],[6]]
    [2,0,3,1] [[1],[1],[1],[1]] 1 [[9],[8],[7],[6]]
    rfl (by decide) (by decide) rfl (by decide) (by decide)).1.1

/-! The distill_token counterexample computation (N = 6, r = 1). -/

theorem c6_norm : normalizeRows [[1],[1],[1],[1],[1],[1]] = [[1],[1],[1],[1],[1],[1]] := by
  norm_num [normalizeRows, dot, ratSqrt, Rat.num_one, Rat.den_one]

theorem c6_node_idx : ∀ i, node_idx [[1],[1],[1],[1],[1],[1]] false true i = 1 := by
  intro i
  norm_num [node_idx, argmaxFrom, tb, scores, c6_norm, evens, odds, ta, dot, List.range_succ]

theorem c6_node_max : ∀ i, i < 3 →
    node_max [[1],[1],[1],[1],[1],[1]] false true i = ((1 : ℚ) : WithBot ℚ) := by
  intro i hi
  interval_cases i <;>
    norm_num [node_max, c6_node_idx, scores, c6_norm, evens, odds, ta, tb, dot, List.range_succ]

theorem c6_edge : edge_idx [[1],[1],[1],[1],[1],[1]] false true = [0, 1, 2] := by
  have h0 := c6_node_max 0 (by omega)
  have h1 := c6_node_max 1 (by omega)
  have h2 := c6_node_max 2 (by omega)
  norm_num [edge_idx, argsortDesc, ta, List.insertionSort, List.orderedInsert, List.range_succ,
    h0, h1, h2]

theorem c6_src : src_idx [[1],[1],[1],[1],[1],[1]] 1 false true = [0] := by
  simp [src_idx, c6_edge]

theorem c6_unm : unm_idx [[1],[1],[1],[1],[1],[1]] 1 false true = [1, 2] := by
  simp [unm_idx, c6_edge]

theorem c6_dst : dst_idx [[1],[1],[1],[1],[1],[1]] 1 false true = [1] := by
  simp [dst_idx, c6_src, c6_node_idx]

theorem c6_merge :
    (bipartite_soft_matching [[1],[1],[1],[1],[1],[1]] 1 false true).merge Mode.mean
        [[1],[2],[3],[4],[5],[6]]
      = [[3],[2],[5],[(5 : ℚ)/2],[6]] := by
  rw [bipartite_soft_matching_pos _ 1 false true (by decide)]
  show bipMerge _ 1 false true Mode.mean _ = _
  unfold bipMerge
  rw [c6_unm, c6_src, c6_dst]
  norm_num [evens, odds, ta, tb, gatherRows, scatterReduce, contribTo, applyMode,
    List.range_succ, List.mapIdx_cons, List.mapIdx_nil, distillCat, rowAdd]

theorem c6_unmerge :
    (bipartite_soft_matching [[1],[1],[1],[1],[1],[1]] 1 false true).unmerge
        [[3],[2],[5],[(5 : ℚ)/2],[6]]
      = [[(5 : ℚ)/2],[5],[3],[(5 : ℚ)/2],[2],[6]] := by
  rw [bipartite_soft_matching_pos _ 1 false true (by decide)]
  show bipUnmerge _ 1 false true _ = _
  unfold bipUnmerge
  rw [c6_unm, c6_src, c6_dst]
  norm_num [gatherRows, scatterAssign, List.range_succ, List.set]

/-- C1 counterexample: with distill_token=True at N = 6, r = 1, source row 2
(token position 4, original value [5]) is kept unmerged, yet
unmerge(merge(x, mean)) returns [2] at position 4: an originally-unmerged row
is not restored, so the round-trip law fails as stated once the distill flag
participates. -/
theorem bipartite_random_roundtrip_counterexample :
    2 ∈ unm_idx [[1],[1],[1],[1],[1],[1]] 1 false true
    ∧ 0 < clampR (List.length ([[1],[1],[1],[1],[1],[1]] : Tensor)) 1 false true
    ∧ ((bipartite_soft_matching [[1],[1],[1],[1],[1],[1]] 1 false true).unmerge
        ((bipartite_soft_matching [[1],[1],[1],[1],[1],[1]] 1 false true).merge Mode.mean
          [[1],[2],[3],[4],[5],[6]])).getD 4 []
      ≠ ([[1],[2],[3],[4],[5],[6]] : Tensor).getD 4 [] := by
  refine ⟨by rw [c6_unm]; simp, by decide, ?_⟩
  rw [c6_merge, c6_unmerge]
  norm_num

/-! Row algebra used by the chain invariant. -/

theorem rowAdd_assoc (a : Row) : ∀ b c : Row, rowAdd (rowAdd a b) c = rowAdd a (rowAdd b c) := by
  induction a with
  | nil => intro b c; simp [rowAdd]
  | cons x a ih =>
    intro b c
    cases b with
    | nil => simp [rowAdd]
    | cons y b =>
      cases c with
      | nil => simp [rowAdd]
      | cons z c =>
        simp only [rowAdd, List.zipWith_cons_cons] at ih ⊢
        rw [add_assoc, ih]

theorem foldl_rowAdd_out (t : Tensor) : ∀ z h : Row,
    t.foldl rowAdd (rowAdd z h) = rowAdd z (t.foldl rowAdd h) := by
  induction t with
  | nil => intro z h; rfl
  | cons a t ih =>
    intro z h
    rw [List.foldl_cons, List.foldl_cons, rowAdd_assoc, ih]

theorem foldl_rowAdd_flatten (L : List Tensor) (hne : ∀ l ∈ L, l ≠ []) : ∀ z : Row,
    L.flatten.foldl rowAdd z = (L.map (reduceRows Mode.sum)).foldl rowAdd z := by
  induction L with
  | nil => intro z; rfl
  | cons l L ih =>
    intro z
    rw [List.flatten_cons, List.map_cons, List.foldl_append, List.foldl_cons]
    rw [ih (fun a ha => hne a (List.mem_cons_of_mem _ ha))]
    congr 1
    have hl : l ≠ [] := hne l (List.mem_cons_self _ _)
    match l, hl with
    | h :: t, _ =>
      show (h :: t).foldl rowAdd z = rowAdd z (reduceRows Mode.sum (h :: t))
      rw [reduceRows_cons]
      show t.foldl rowAdd (rowAdd z h) = rowAdd z (applyMode Mode.sum h t)
      rw [foldl_rowAdd_out]
      rfl

theorem reduceRows_sum_flatten (L : List Tensor) (hne : ∀ l ∈ L, l ≠ []) (hL : L ≠ []) :
    reduceRows Mode.sum L.flatten = reduceRows Mode.sum (L.map (reduceRows Mode.sum)) := by
  match L, hL with
  | l :: L, _ =>
    have hl : l ≠ [] := hne l (List.mem_cons_self _ _)
    match l, hl with
    | h :: t, _ =>
      rw [List.flatten_cons, List.map_cons]
      show reduceRows Mode.sum ((h :: t) ++ L.flatten) = _
      rw [List.cons_append, reduceRows_cons, reduceRows_cons]
      show (t ++ L.flatten).foldl rowAdd h = _
      rw [List.foldl_append]
      rw [foldl_rowAdd_flatten L (fun a ha => hne a (List.mem_cons_of_mem _ ha))]
      rfl

theorem foldl_rowAdd_singletons (t : List ℚ) : ∀ z : ℚ,
    (t.map (fun q => [q])).foldl rowAdd [z] = [z + t.sum] := by
  induction t with
  | nil => intro z; simp
  | cons a t ih =>
    intro z
    rw [List.map_cons, List.foldl_cons]
    have h1 : rowAdd [z] [a] = [z + a] := rfl
    rw [h1, ih]
    rw [List.sum_cons]
    congr 1
    ring

theorem reduceRows_sum_singletons (h : ℚ) (t : List ℚ) :
    reduceRows Mode.sum ((h :: t).map (fun q => [q])) = [(h :: t).sum] := by
  rw [List.map_cons, reduceRows_cons]
  show (t.map (fun q => [q])).foldl rowAdd [h] = _
  rw [foldl_rowAdd_singletons, List.sum_cons]

theorem reduceRows_mean_eq (l : Tensor) (hl : l ≠ []) :
    reduceRows Mode.mean l = (reduceRows Mode.sum l).map (fun q => q / (l.length : ℚ)) := by
  match l, hl with
  | h :: t, _ =>
    rw [reduceRows_cons, reduceRows_cons]
    show (t.foldl rowAdd h).map (fun q => q / ((1 + t.length : ℕ) : ℚ)) = _
    have hc : (1 + t.length : ℕ) = (h :: t).length := by
      rw [List.length_cons]
      omega
    rw [hc]
    rfl

theorem map_div_mul_cancel (l : Row) (c : ℚ) (hc : c ≠ 0) :
    (l.map (fun q => q / c)).map (fun q => q * c) = l := by
  rw [List.map_map]
  have : ((fun q => q * c) ∘ fun q => q / c) = fun q => q := by
    funext q
    simp [div_mul_cancel₀ q hc]
  rw [this]
  simp

theorem zipWith_map_same {α β γ δ : Type} (f : β → γ → δ) (g : α → β) (h : α → γ) (l : List α) :
    List.zipWith f (l.map g) (l.map h) = l.map (fun a => f (g a) (h a)) := by
  induction l with
  | nil => rfl
  | cons a l ih => simp [ih]

theorem rowMax_indicator (n : ℕ) (A B : List ℕ) :
    rowMax (indicatorRow n A) (indicatorRow n B) = indicatorRow n (A ++ B) := by
  unfold rowMax indicatorRow
  rw [zipWith_map_same]
  apply List.map_congr_left
  intro p _
  by_cases hA : p ∈ A <;> by_cases hB : p ∈ B <;> simp [hA, hB] <;> norm_num

theorem foldl_rowMax_indicators (n : ℕ) (G : List (List ℕ)) : ∀ A : List ℕ,
    (G.map (indicatorRow n)).foldl rowMax (indicatorRow n A)
      = indicatorRow n (A ++ G.flatten) := by
  induction G with
  | nil => intro A; simp
  | cons g G ih =>
    intro A
    rw [List.map_cons, List.foldl_cons, rowMax_indicator, ih, List.flatten_cons,
      List.append_assoc]

theorem reduceRows_amax_indicators (n : ℕ) (g0 : List ℕ) (G : List (List ℕ)) :
    reduceRows Mode.amax ((g0 :: G).map (indicatorRow n)) = indicatorRow n (g0 :: G).flatten := by
  rw [List.map_cons, reduceRows_cons]
  show (G.map (indicatorRow n)).foldl rowMax (indicatorRow n g0) = _
  rw [foldl_rowMax_indicators, List.flatten_cons]

theorem getD_zipWith_rows (f : Row → Row → Row) (x y : Tensor) {u : ℕ}
    (hu1 : u < x.length) (hu2 : u < y.length) :
    (List.zipWith f x y).getD u [] = f (x.getD u []) (y.getD u []) := by
  rw [List.getD_eq_getElem?_getD, List.getElem?_zipWith']
  rw [List.getElem?_eq_getElem hu1, List.getElem?_eq_getElem hu2]
  simp [List.getD_eq_getElem?_getD, List.getElem?_eq_getElem hu1,
    List.getElem?_eq_getElem hu2]

theorem range_map_getD {α : Type} (l : List α) (d : α) :
    (List.range l.length).map (fun k => l.getD k d) = l := by
  apply List.ext_getElem
  · simp
  · intro i h1 h2
    simp only [List.getElem_map, List.getElem_range]
    rw [List.getD_eq_getElem _ _ h2]

theorem flatten_map_flatten {α β : Type} (f : α → List β) (S : List (List α)) :
    (S.map (fun g => (g.map f).flatten)).flatten = (S.flatten.map f).flatten := by
  induction S with
  | nil => rfl
  | cons g S ih =>
    rw [List.map_cons, List.flatten_cons, List.flatten_cons, List.map_append,
      List.flatten_append, ih]

theorem flatten_map_singleton {α : Type} (l : List α) :
    (l.map (fun i => [i])).flatten = l := by
  induction l with
  | nil => rfl
  | cons a l ih => simp [ih]

/-! Every chain step is a partition collector. -/

theorem mem_distillCat {α : Type} {a b : List α} {g : α} (hg : g ∈ distillCat a b) :
    g ∈ a ∨ g ∈ b := by
  unfold distillCat at hg
  rcases List.mem_append.mp hg with h | h
  · rcases List.mem_append.mp h with h2 | h2
    · rcases List.mem_append.mp h2 with h3 | h3
      · exact Or.inl (List.take_subset _ _ h3)
      · exact Or.inr (List.take_subset _ _ h3)
    · exact Or.inl (List.drop_subset _ _ h2)
  · exact Or.inr (List.drop_subset _ _ h)

theorem bipGroups_nonempty (m : Tensor) (rr : ℕ) (c d : Bool) :
    ∀ g ∈ bipGroups m rr c d, g ≠ [] := by
  intro g hg
  have hUD : g ∈ unmGroups m rr c d ∨ g ∈ dstGroups m rr c d := by
    unfold bipGroups at hg
    cases d
    · simpa using List.mem_append.mp (by simpa using hg)
    · exact mem_distillCat (by simpa using hg)
  rcases hUD with h | h
  · obtain ⟨i, _, rfl⟩ := List.mem_map.mp h
    simp
  · obtain ⟨j, _, rfl⟩ := List.mem_map.mp h
    simp

theorem specClamp_tb (s : BipSpec) (h0 : specClamp s ≠ 0) : 0 < tb s.metric.length := by
  have hcl := clampR_le s.metric.length s.r s.classTok s.distillTok
  have htb : tb s.metric.length = s.metric.length / 2 := rfl
  unfold specClamp at h0
  omega

theorem length_specGroups (s : BipSpec) :
    (specGroups s).length = s.metric.length - specClamp s := by
  unfold specGroups
  by_cases h0 : specClamp s = 0
  · rw [if_pos h0, List.length_map, List.length_range]
    omega
  · rw [if_neg h0, length_bipGroups, length_unm_idx]
    have hcl := clampR_le s.metric.length s.r s.classTok s.distillTok
    have hta : ta s.metric.length = (s.metric.length + 1) / 2 := rfl
    have htb : tb s.metric.length = s.metric.length / 2 := rfl
    unfold specClamp at *
    omega

theorem specGroups_nonempty (s : BipSpec) : ∀ g ∈ specGroups s, g ≠ [] := by
  unfold specGroups
  by_cases h0 : specClamp s = 0
  · rw [if_pos h0]
    intro g hg
    obtain ⟨i, _, rfl⟩ := List.mem_map.mp hg
    simp
  · rw [if_neg h0]
    exact bipGroups_nonempty _ _ _ _

theorem specGroups_flatten_perm (s : BipSpec) :
    (specGroups s).flatten.Perm (List.range s.metric.length) := by
  unfold specGroups
  by_cases h0 : specClamp s = 0
  · rw [if_pos h0, flatten_map_singleton]
  · rw [if_neg h0]
    exact bipGroups_flatten_perm _ _ _ _ (specClamp_tb s h0)

theorem spec_merge_collector (s : BipSpec) (mode : Mode) (z : Tensor)
    (hz : z.length = s.metric.length) :
    ((specOps s).merge mode z).length = (specGroups s).length
    ∧ ∀ t, t < (specGroups s).length →
        ((specOps s).merge mode z).getD t []
          = reduceRows mode (((specGroups s).getD t []).map (fun u => z.getD u [])) := by
  unfold specOps specGroups
  by_cases h0 : specClamp s = 0
  · have h0c : clampR s.metric.length s.r s.classTok s.distillTok = 0 := h0
    rw [bipartite_soft_matching_zero _ _ _ _ h0c, if_pos h0]
    refine ⟨by simp [doNothingOps, do_nothing, hz], ?_⟩
    intro t ht
    have htn : t < s.metric.length := by simpa using ht
    rw [getD_map_range _ htn]
    show z.getD t [] = reduceRows mode ([t].map (fun u => z.getD u []))
    rw [List.map_cons, List.map_nil, reduceRows_single]
  · have h0c : clampR s.metric.length s.r s.classTok s.distillTok ≠ 0 := h0
    rw [bipartite_soft_matching_pos _ _ _ _ h0c, if_neg h0]
    have hfa := bipMerge_forall₂ s.metric (specClamp s) s.classTok s.distillTok mode z hz
    refine ⟨hfa.length_eq, ?_⟩
    intro t ht
    have ht1 : t < (bipMerge s.metric (specClamp s) s.classTok s.distillTok mode z).length := by
      rw [hfa.length_eq]
      exact ht
    exact forall₂_getD hfa ht1 [] []

theorem reduceRows_sum_singletons_ne (l : List ℚ) (hl : l ≠ []) :
    reduceRows Mode.sum (l.map (fun q => [q])) = [l.sum] := by
  match l, hl with
  | h :: t, _ => exact reduceRows_sum_singletons h t

theorem reduceRows_amax_indicators_ne (n : ℕ) (L : List (List ℕ)) (hL : L ≠ []) :
    reduceRows Mode.amax (L.map (indicatorRow n)) = indicatorRow n L.flatten := by
  match L, hL with
  | g :: G, _ => exact reduceRows_amax_indicators n g G

theorem chain_step (n : ℕ) (x0 : Tensor) (s : BipSpec) (P : List (List ℕ))
    (x size src : Tensor) (hinv : ChainInv n x0 P x size src)
    (hs : s.metric.length = P.length) :
    ChainInv n x0 (composeGroups (specGroups s) P)
      (merge_wavg (specOps s).merge x (some size)).1
      (merge_wavg (specOps s).merge x (some size)).2
      (merge_source (specOps s).merge [] (some src)) := by
  obtain ⟨hxl, hsl, hsrcl, hne, hperm, hrows⟩ := hinv
  have hSmem : ∀ g ∈ specGroups s, ∀ u ∈ g, u < P.length := by
    intro g hg u hu
    have h1 : u ∈ (specGroups s).flatten := List.mem_flatten.mpr ⟨g, hg, hu⟩
    have h2 := (specGroups_flatten_perm s).mem_iff.mp h1
    rw [List.mem_range, hs] at h2
    exact h2
  have hSne := specGroups_nonempty s
  have hgroup_mem : ∀ u, u < P.length → P.getD u [] ∈ P := by
    intro u hu
    rw [List.getD_eq_getElem _ _ hu]
    exact List.getElem_mem _
  have hcu_pos : ∀ u, u < P.length → 0 < (P.getD u []).length :=
    fun u hu => List.length_pos.mpr (hne _ (hgroup_mem u hu))
  have hmul : ∀ u, u < P.length → (mulSize x size).getD u []
      = reduceRows Mode.sum ((P.getD u []).map (fun q => x0.getD q [])) := by
    intro u hu
    have hx_u := (hrows u hu).2.1
    have hs_u := (hrows u hu).1
    show (List.zipWith (fun row srow => row.map (fun q => q * srow.getD 0 0)) x size).getD u []
      = _
    rw [getD_zipWith_rows _ x size (by omega) (by omega), hx_u, hs_u]
    have hfun : (fun q => q * (([(((P.getD u []).length : ℕ) : ℚ)] : Row).getD 0 0))
        = fun q => q * (((P.getD u []).length : ℕ) : ℚ) := rfl
    rw [hfun]
    have hrne : (P.getD u []).map (fun q => x0.getD q []) ≠ [] := by
      intro hcon
      exact hne _ (hgroup_mem u hu) (List.map_eq_nil_iff.mp hcon)
    rw [reduceRows_mean_eq _ hrne, List.length_map]
    exact map_div_mul_cancel _ _ (Nat.cast_ne_zero.mpr (hcu_pos u hu).ne')
  have hmul_len : (mulSize x size).length = s.metric.length := by
    show (List.zipWith _ x size).length = _
    rw [List.length_zipWith]
    omega
  have hcolX := spec_merge_collector s Mode.sum (mulSize x size) hmul_len
  have hcolS := spec_merge_collector s Mode.sum size (by omega)
  have hcolSrc := spec_merge_collector s Mode.amax src (by omega)
  have hW1 : (merge_wavg (specOps s).merge x (some size)).1
      = divSize ((specOps s).merge Mode.sum (mulSize x size))
          ((specOps s).merge Mode.sum size) := rfl
  have hW2 : (merge_wavg (specOps s).merge x (some size)).2
      = (specOps s).merge Mode.sum size := rfl
  have hSrcEq : merge_source (specOps s).merge [] (some src)
      = (specOps s).merge Mode.amax src := rfl
  have hnewlen : (composeGroups (specGroups s) P).length = (specGroups s).length := by
    unfold composeGroups
    rw [List.length_map]
  have hnewG : ∀ t, t < (specGroups s).length → (composeGroups (specGroups s) P).getD t []
      = (((specGroups s).getD t []).map (fun u => P.getD u [])).flatten := by
    intro t ht
    unfold composeGroups
    rw [getD_map_at _ _ ht [] []]
  have hgmem : ∀ t, t < (specGroups s).length → (specGroups s).getD t [] ∈ specGroups s := by
    intro t ht
    rw [List.getD_eq_getElem _ _ ht]
    exact List.getElem_mem _
  -- the new size rows
  have hsize_t : ∀ t, t < (specGroups s).length →
      ((specOps s).merge Mode.sum size).getD t []
        = [((((composeGroups (specGroups s) P).getD t []).length : ℕ) : ℚ)] := by
    intro t ht
    rw [hcolS.2 t ht]
    have hcongr : ((specGroups s).getD t []).map (fun u => size.getD u [])
        = ((specGroups s).getD t []).map
            (fun u => [(((P.getD u []).length : ℕ) : ℚ)]) := by
      apply List.map_congr_left
      intro u hu
      exact (hrows u (hSmem _ (hgmem t ht) u hu)).1
    rw [hcongr]
    have hmm2 : ((specGroups s).getD t []).map (fun u => [(((P.getD u []).length : ℕ) : ℚ)])
        = (((specGroups s).getD t []).map (fun u => (((P.getD u []).length : ℕ) : ℚ))).map
            (fun q => [q]) := by
      rw [List.map_map]
      rfl
    rw [hmm2, reduceRows_sum_singletons_ne _ (by
      intro hcon
      exact hSne _ (hgmem t ht) (List.map_eq_nil_iff.mp hcon))]
    congr 1
    rw [hnewG t ht, List.length_flatten, List.map_map]
    rw [Nat.cast_list_sum, List.map_map]
    rfl
  refine ⟨?_, ?_, ?_, ?_, ?_, ?_⟩
  · rw [hW1]
    show (List.zipWith _ _ _).length = _
    rw [List.length_zipWith, hcolX.1, hcolS.1, hnewlen]
    omega
  · rw [hW2, hcolS.1, hnewlen]
  · rw [hSrcEq, hcolSrc.1, hnewlen]
  · intro g hg
    unfold composeGroups at hg
    obtain ⟨g0, hg0, rfl⟩ := List.mem_map.mp hg
    intro hcon
    rw [List.flatten_eq_nil_iff] at hcon
    obtain ⟨u0, hu0⟩ := List.exists_mem_of_ne_nil _ (hSne _ hg0)
    have : P.getD u0 [] = [] := hcon _ (List.mem_map.mpr ⟨u0, hu0, rfl⟩)
    exact hne _ (hgroup_mem u0 (hSmem _ hg0 u0 hu0)) this
  · have h1 : (composeGroups (specGroups s) P).flatten
        = ((specGroups s).flatten.map (fun u => P.getD u [])).flatten :=
      flatten_map_flatten _ _
    have h2 : (specGroups s).flatten.Perm (List.range P.length) := by
      rw [← hs]
      exact specGroups_flatten_perm s
    have h3 := (h2.map (fun u => P.getD u [])).flatten
    have h4 : (List.range P.length).map (fun u => P.getD u []) = P := range_map_getD P []
    rw [h1]
    refine (h3.trans ?_).trans hperm
    rw [h4]
  · intro t htP
    have ht : t < (specGroups s).length := by
      rw [hnewlen] at htP
      exact htP
    have hgne : (specGroups s).getD t [] ≠ [] := hSne _ (hgmem t ht)
    have hnewGne : (composeGroups (specGroups s) P).getD t [] ≠ [] := by
      rw [hnewG t ht]
      intro hcon
      rw [List.flatten_eq_nil_iff] at hcon
      obtain ⟨u0, hu0⟩ := List.exists_mem_of_ne_nil _ hgne
      have : P.getD u0 [] = [] := hcon _ (List.mem_map.mpr ⟨u0, hu0, rfl⟩)
      exact hne _ (hgroup_mem u0 (hSmem _ (hgmem t ht) u0 hu0)) this
    refine ⟨by rw [hW2]; exact hsize_t t ht, ?_, ?_⟩
    · -- the weighted mean row
      rw [hW1]
      unfold divSize
      rw [getD_zipWith_rows _ _ _ (by rw [hcolX.1]; exact ht) (by rw [hcolS.1]; exact ht)]
      rw [hsize_t t ht, hcolX.2 t ht]
      have hfun : (fun q => q / (([((((composeGroups (specGroups s) P).getD t []).length : ℕ) : ℚ)] : Row).getD 0 0))
          = fun q => q / ((((composeGroups (specGroups s) P).getD t []).length : ℕ) : ℚ) := rfl
      rw [hfun]
      have hcongr : ((specGroups s).getD t []).map (fun u => (mulSize x size).getD u [])
          = ((specGroups s).getD t []).map
              (fun u => reduceRows Mode.sum ((P.getD u []).map (fun q => x0.getD q []))) := by
        apply List.map_congr_left
        intro u hu
        exact hmul u (hSmem _ (hgmem t ht) u hu)
      rw [hcongr]
      have hmm2 : ((specGroups s).getD t []).map
            (fun u => reduceRows Mode.sum ((P.getD u []).map (fun q => x0.getD q [])))
          = (((specGroups s).getD t []).map
              (fun u => (P.getD u []).map (fun q => x0.getD q []))).map
            (reduceRows Mode.sum) := by
        rw [List.map_map]
        rfl
      rw [hmm2]
      rw [← reduceRows_sum_flatten _ (by
          intro l hl
          obtain ⟨u, hu, rfl⟩ := List.mem_map.mp hl
          intro hcon
          exact hne _ (hgroup_mem u (hSmem _ (hgmem t ht) u hu))
            (List.map_eq_nil_iff.mp hcon))
        (by
          intro hcon
          exact hgne (List.map_eq_nil_iff.mp hcon))]
      have hflat : (((specGroups s).getD t []).map
            (fun u => (P.getD u []).map (fun q => x0.getD q []))).flatten
          = ((composeGroups (specGroups s) P).getD t []).map (fun q => x0.getD q []) := by
        rw [hnewG t ht]
        rw [show ((specGroups s).getD t []).map
              (fun u => (P.getD u []).map (fun q => x0.getD q []))
            = (((specGroups s).getD t []).map (fun u => P.getD u [])).map
              (List.map (fun q => x0.getD q [])) from by rw [List.map_map]; rfl]
        rw [← List.map_flatten]
      rw [hflat]
      rw [reduceRows_mean_eq _ (by
        intro hcon
        exact hnewGne (List.map_eq_nil_iff.mp hcon))]
      rw [List.length_map]
    · -- the provenance row
      rw [hSrcEq, hcolSrc.2 t ht]
      have hcongr : ((specGroups s).getD t []).map (fun u => src.getD u [])
          = ((specGroups s).getD t []).map (fun u => indicatorRow n (P.getD u [])) := by
        apply List.map_congr_left
        intro u hu
        exact (hrows u (hSmem _ (hgmem t ht) u hu)).2.2
      rw [hcongr]
      have hmm2 : ((specGroups s).getD t []).map (fun u => indicatorRow n (P.getD u []))
          = (((specGroups s).getD t []).map (fun u => P.getD u [])).map (indicatorRow n) := by
        rw [List.map_map]
        rfl
      rw [hmm2, reduceRows_amax_indicators_ne n _ (by
        intro hcon
        exact hgne (List.map_eq_nil_iff.mp hcon)), ← hnewG t ht]

theorem chain_fold (x0 : Tensor) (specs : List BipSpec) :
    ∀ (n : ℕ) (P : List (List ℕ)) (x size src : Tensor),
    ChainInv n x0 P x size src → chainValid P.length specs = true →
    ChainInv n x0 (specs.foldl (fun Q s => composeGroups (specGroups s) Q) P)
      (specs.foldl (fun p s => merge_wavg (specOps s).merge p.1 (some p.2)) (x, size)).1
      (specs.foldl (fun p s => merge_wavg (specOps s).merge p.1 (some p.2)) (x, size)).2
      (specs.foldl (fun sr s => merge_source (specOps s).merge [] (some sr)) src) := by
  induction specs with
  | nil =>
    intro n P x size src hinv _
    exact hinv
  | cons s rest ih =>
    intro n P x size src hinv hv
    unfold chainValid at hv
    rw [Bool.and_eq_true, beq_iff_eq] at hv
    obtain ⟨hsv, hv2⟩ := hv
    have hstep := chain_step n x0 s P x size src hinv hsv
    have hlen : (composeGroups (specGroups s) P).length = P.length - specClamp s := by
      unfold composeGroups
      rw [List.length_map, length_specGroups, hsv]
    simp only [List.foldl_cons]
    exact ih n (composeGroups (specGroups s) P) _ _ _ hstep (by rw [hlen]; exact hv2)

theorem chain_master (n : ℕ) (x0 : Tensor) (specs : List BipSpec)
    (hx0 : x0.length = n) (hv : chainValid n specs = true) :
    ChainInv n x0 (provChain specs n) (wavgChain specs x0).1 (wavgChain specs x0).2
      (sourceChain specs n) := by
  have hbase : ChainInv n x0 ((List.range n).map (fun i => [i])) x0 (onesLike x0) (eye n) := by
    refine ⟨?_, ?_, ?_, ?_, ?_, ?_⟩
    · rw [List.length_map, List.length_range, hx0]
    · show (x0.map (fun _ => [(1 : ℚ)])).length = _
      rw [List.length_map, List.length_map, List.length_range, hx0]
    · show ((List.range n).map _).length = _
      rw [List.length_map, List.length_map, List.length_range]
    · intro g hg
      obtain ⟨i, _, rfl⟩ := List.mem_map.mp hg
      simp
    · rw [flatten_map_singleton]
    · intro t ht
      rw [List.length_map, List.length_range] at ht
      have hP : ((List.range n).map (fun i => [i])).getD t [] = [t] := getD_map_range _ ht _
      refine ⟨?_, ?_, ?_⟩
      · show (x0.map (fun _ => [(1 : ℚ)])).getD t [] = _
        rw [hP]
        have ht0 : t < x0.length := by omega
        rw [List.getD_eq_getElem _ _ (by rw [List.length_map]; exact ht0)]
        rw [List.getElem_map]
        norm_num
      · rw [hP, List.map_singleton, reduceRows_single]
      · show (eye n).getD t [] = _
        rw [hP]
        unfold eye indicatorRow
        rw [getD_map_range _ ht]
        apply List.map_congr_left
        intro p _
        simp [eq_comm]
  have hvl : chainValid ((List.range n).map (fun i => [i])).length specs = true := by
    rw [List.length_map, List.length_range]
    exact hv
  exact chain_fold x0 specs n _ x0 (onesLike x0) (eye n) hbase hvl

/-- C5: merge_wavg returns exactly the pair
(merge(x*size, sum) / merge(size, sum), merge(size, sum)), with size
defaulting to the all-ones tensor when absent; and threading the returned
size through any valid chain of bipartite operators yields, for every final
token, the mean of all original token rows folded into it together with the
exact count of those rows as its size. -/
theorem merge_wavg_correct (mer : Mode → Tensor → Tensor) (x sz : Tensor)
    (n : ℕ) (x0 : Tensor) (specs : List BipSpec)
    (hx0 : x0.length = n) (hv : chainValid n specs = true) :
    (merge_wavg mer x none
        = (divSize (mer Mode.sum (mulSize x (onesLike x))) (mer Mode.sum (onesLike x)),
           mer Mode.sum (onesLike x))
      ∧ merge_wavg mer x (some sz)
        = (divSize (mer Mode.sum (mulSize x sz)) (mer Mode.sum sz), mer Mode.sum sz))
    ∧ ∀ t, t < (provChain specs n).length →
        (wavgChain specs x0).1.getD t []
          = reduceRows Mode.mean (((provChain specs n).getD t []).map (fun q => x0.getD q []))
        ∧ (wavgChain specs x0).2.getD t []
          = [((((provChain specs n).getD t []).length : ℕ) : ℚ)] := by
  refine ⟨⟨rfl, rfl⟩, ?_⟩
  obtain ⟨h1, h2, h3, h4, h5, h6⟩ := chain_master n x0 specs hx0 hv
  intro t ht
  exact ⟨(h6 t ht).2.1, (h6 t ht).1⟩

/-- C5 witness: the theorem applied with the identity operator, a one-token
chain state and the empty chain; all hypotheses are discharged concretely. -/
theorem merge_wavg_correct_witness :
    (merge_wavg doNothingOps.merge [[(1 : ℚ)]] none
        = (divSize (doNothingOps.merge Mode.sum (mulSize [[(1 : ℚ)]] (onesLike [[(1 : ℚ)]])))
            (doNothingOps.merge Mode.sum (onesLike [[(1 : ℚ)]])),
           doNothingOps.merge Mode.sum (onesLike [[(1 : ℚ)]]))
      ∧ merge_wavg doNothingOps.merge [[(1 : ℚ)]] (some [[(2 : ℚ)]])
        = (divSize (doNothingOps.merge Mode.sum (mulSize [[(1 : ℚ)]] [[(2 : ℚ)]]))
            (doNothingOps.merge Mode.sum [[(2 : ℚ)]]),
           doNothingOps.merge Mode.sum [[(2 : ℚ)]]))
    ∧ ((wavgChain [] [[(1 : ℚ)]]).1.getD 0 []
          = reduceRows Mode.mean (((provChain [] 1).getD 0 []).map
              (fun q => List.getD [[(1 : ℚ)]] q []))
        ∧ (wavgChain [] [[(1 : ℚ)]]).2.getD 0 []
          = [((((provChain [] 1).getD 0 []).length : ℕ) : ℚ)]) :=
  ⟨(merge_wavg_correct doNothingOps.merge [[(1 : ℚ)]] [[(2 : ℚ)]] 1 [[(1 : ℚ)]] [] rfl rfl).1,
   (merge_wavg_correct doNothingOps.merge [[(1 : ℚ)]] [[(2 : ℚ)]] 1 [[(1 : ℚ)]] [] rfl rfl).2
     0 (by decide)⟩

/-- C6: merge_source returns merge(source, amax), with source defaulting to
the identity matrix of side x.length; and along any valid chain started from
that default, row t of the provenance matrix is nonzero exactly at the
original token positions folded into final token t. -/
theorem merge_source_correct (mer : Mode → Tensor → Tensor) (x src : Tensor)
    (n : ℕ) (specs : List BipSpec) (hv : chainValid n specs = true) :
    (merge_source mer x none = mer Mode.amax (eye x.length)
      ∧ merge_source mer x (some src) = mer Mode.amax src)
    ∧ ∀ t, t < (provChain specs n).length → ∀ p : ℕ,
        (((sourceChain specs n).getD t []).getD p 0 ≠ 0
          ↔ p ∈ (provChain specs n).getD t []) := by
  have heye : (eye n).length = n := by
    unfold eye
    rw [List.length_map, List.length_range]
  obtain ⟨h1, h2, h3, h4, h5, h6⟩ := chain_master n (eye n) specs heye hv
  refine ⟨⟨rfl, rfl⟩, ?_⟩
  intro t ht p
  rw [(h6 t ht).2.2]
  unfold indicatorRow
  by_cases hp : p < n
  · rw [getD_map_range _ hp]
    by_cases hmem : p ∈ (provChain specs n).getD t []
    · rw [if_pos hmem]
      exact ⟨fun _ => hmem, fun _ => one_ne_zero⟩
    · rw [if_neg hmem]
      exact ⟨fun h => absurd rfl h, fun h => absurd h hmem⟩
  · have hout : ((List.range n).map
        (fun q => if q ∈ (provChain specs n).getD t [] then (1 : ℚ) else 0)).getD p 0 = 0 := by
      apply List.getD_eq_default
      rw [List.length_map, List.length_range]
      omega
    rw [hout]
    simp only [ne_eq, not_true_eq_false, false_iff]
    intro hmem
    have hgP : (provChain specs n).getD t [] ∈ provChain specs n := by
      rw [List.getD_eq_getElem _ _ ht]
      exact List.getElem_mem _
    have hflat : p ∈ (provChain specs n).flatten :=
      List.mem_flatten.mpr ⟨_, hgP, hmem⟩
    have := h5.mem_iff.mp hflat
    rw [List.mem_range] at this
    omega

/-- C6 witness: the theorem applied with the identity operator and the empty
chain at n = 1, read off at final token 0 and original position 0. -/
theorem merge_source_correct_witness :
    ((merge_source doNothingOps.merge [[(1 : ℚ)]] none
        = doNothingOps.merge Mode.amax (eye 1)
      ∧ merge_source doNothingOps.merge [[(1 : ℚ)]] (some [[(5 : ℚ)]])
        = doNothingOps.merge Mode.amax [[(5 : ℚ)]])
    ∧ (((sourceChain [] 1).getD 0 []).getD 0 0 ≠ 0
          ↔ 0 ∈ (provChain [] 1).getD 0 [])) :=
  ⟨(merge_source_correct doNothingOps.merge [[(1 : ℚ)]] [[(5 : ℚ)]] 1 [] rfl).1,
   (merge_source_correct doNothingOps.merge [[(1 : ℚ)]] [[(5 : ℚ)]] 1 [] rfl).2
     0 (by decide) 0⟩

theorem getD_rowAdd : ∀ (a b : Row) (j : ℕ), a.length = b.length →
    (rowAdd a b).getD j 0 = a.getD j 0 + b.getD j 0 := by
  intro a
  induction a with
  | nil =>
    intro b j h
    have hb : b = [] := List.eq_nil_of_length_eq_zero h.symm
    subst hb
    simp [rowAdd]
  | cons q a ih =>
    intro b j h
    cases b with
    | nil => simp at h
    | cons p b =>
      cases j with
      | zero => rfl
      | succ j =>
        show (rowAdd a b).getD j 0 = a.getD j 0 + b.getD j 0
        exact ih b j (by simpa using h)

theorem colSum_foldl_rowAdd (C j : ℕ) : ∀ (t : Tensor) (acc : Row), acc.length = C →
    (∀ row ∈ t, row.length = C) →
    (t.foldl rowAdd acc).length = C ∧
    (t.foldl rowAdd acc).getD j 0
      = acc.getD j 0 + (t.map (fun row => row.getD j 0)).sum := by
  intro t
  induction t with
  | nil =>
    intro acc hacc _
    exact ⟨hacc, by simp⟩
  | cons rrow t ih =>
    intro acc hacc hall
    have hr : rrow.length = C := hall _ (List.mem_cons_self _ _)
    have hlen : (rowAdd acc rrow).length = C := by
      show (List.zipWith _ _ _).length = C
      rw [List.length_zipWith, hacc, hr, Nat.min_self]
    obtain ⟨h1, h2⟩ := ih (rowAdd acc rrow) hlen
      (fun row hrow => hall row (List.mem_cons_of_mem _ hrow))
    refine ⟨h1, ?_⟩
    rw [List.foldl_cons, h2, getD_rowAdd acc rrow j (by rw [hacc, hr]),
      List.map_cons, List.sum_cons]
    ring

theorem getD_reduceRows_sum (C j : ℕ) (rows : Tensor) (hne : rows ≠ [])
    (hr : ∀ row ∈ rows, row.length = C) :
    (reduceRows Mode.sum rows).getD j 0 = (rows.map (fun row => row.getD j 0)).sum := by
  match rows, hne with
  | h :: t, _ =>
    rw [reduceRows_cons]
    show (t.foldl rowAdd h).getD j 0 = _
    obtain ⟨_, h2⟩ := colSum_foldl_rowAdd C j t h (hr h (List.mem_cons_self _ _))
      (fun row hrow => hr row (List.mem_cons_of_mem _ hrow))
    rw [h2, List.map_cons, List.sum_cons]

theorem map_getD_range_map {α β : Type} (l : List α) (d : α) (f : α → β) :
    l.map f = (List.range l.length).map (fun u => f (l.getD u d)) := by
  conv_lhs => rw [← range_map_getD l d]
  rw [List.map_map]
  rfl

/-- C10: with distill_token=False, the bipartite merge with sum reduction
conserves every per-channel column sum of a rectangular value tensor whose
token count matches the metric; and the size tensor threaded by merge_wavg
from the all-ones default along any valid chain always sums to the original
token count n. -/
theorem bipartite_mass_conservation (m : Tensor) (r : ℕ) (c : Bool) (x : Tensor) (C : ℕ)
    (hx : x.length = m.length) (hrect : ∀ row ∈ x, row.length = C)
    (n : ℕ) (x0 : Tensor) (specs : List BipSpec)
    (hx0 : x0.length = n) (hv : chainValid n specs = true) :
    (∀ j : ℕ,
      (((bipartite_soft_matching m r c false).merge Mode.sum x).map
          (fun row => row.getD j 0)).sum
        = (x.map (fun row => row.getD j 0)).sum)
    ∧ ((wavgChain specs x0).2.map List.sum).sum = (n : ℚ) := by
  constructor
  · intro j
    set s : BipSpec := ⟨m, r, c, false⟩ with hsdef
    have hxm : x.length = s.metric.length := hx
    have hcol := spec_merge_collector s Mode.sum x hxm
    have hops : (bipartite_soft_matching m r c false).merge = (specOps s).merge := rfl
    rw [hops]
    have hmemx : ∀ g ∈ specGroups s, ∀ u ∈ g, u < x.length := by
      intro g hg u hu
      have h1 : u ∈ (specGroups s).flatten := List.mem_flatten.mpr ⟨g, hg, hu⟩
      have h2 := (specGroups_flatten_perm s).mem_iff.mp h1
      rw [List.mem_range] at h2
      omega
    rw [map_getD_range_map ((specOps s).merge Mode.sum x) [] (fun row => row.getD j 0),
      hcol.1]
    have hstep : ∀ t ∈ List.range (specGroups s).length,
        (((specOps s).merge Mode.sum x).getD t []).getD j 0
          = (((specGroups s).getD t []).map (fun u => (x.getD u []).getD j 0)).sum := by
      intro t ht
      rw [List.mem_range] at ht
      have hgt : (specGroups s).getD t [] ∈ specGroups s := by
        rw [List.getD_eq_getElem _ _ ht]
        exact List.getElem_mem _
      rw [hcol.2 t ht]
      rw [getD_reduceRows_sum C j _ (by
          intro hcon
          exact specGroups_nonempty s _ hgt (List.map_eq_nil_iff.mp hcon))
        (by
          intro row hrow
          obtain ⟨u, hu, rfl⟩ := List.mem_map.mp hrow
          have hux : u < x.length := hmemx _ hgt u hu
          apply hrect
          rw [List.getD_eq_getElem _ _ hux]
          exact List.getElem_mem _)]
      rw [List.map_map]
      rfl
    rw [List.map_congr_left hstep]
    have hsum1 : ((List.range (specGroups s).length).map
          (fun t => (((specGroups s).getD t []).map
            (fun u => (x.getD u []).getD j 0)).sum)).sum
        = ((specGroups s).map
            (fun g => (g.map (fun u => (x.getD u []).getD j 0)).sum)).sum := by
      rw [map_getD_range_map (specGroups s) []
        (fun g => (g.map (fun u => (x.getD u []).getD j 0)).sum)]
    rw [hsum1]
    have hsum2 : ((specGroups s).map
          (fun g => (g.map (fun u => (x.getD u []).getD j 0)).sum)).sum
        = ((specGroups s).flatten.map (fun u => (x.getD u []).getD j 0)).sum := by
      rw [List.map_flatten, List.sum_flatten, List.map_map]
      rfl
    rw [hsum2]
    have hpermG : (specGroups s).flatten.Perm (List.range x.length) := by
      rw [hxm]
      exact specGroups_flatten_perm s
    rw [(hpermG.map (fun u => (x.getD u []).getD j 0)).sum_eq]
    rw [map_getD_range_map x [] (fun row => row.getD j 0)]
  · obtain ⟨h1, h2, h3, h4, h5, h6⟩ := chain_master n x0 specs hx0 hv
    rw [map_getD_range_map (wavgChain specs x0).2 [] List.sum, h2]
    have hstep : ∀ t ∈ List.range (provChain specs n).length,
        List.sum ((wavgChain specs x0).2.getD t [])
          = (((provChain specs n).getD t []).length : ℚ) := by
      intro t ht
      rw [List.mem_range] at ht
      rw [(h6 t ht).1]
      simp
    rw [List.map_congr_left hstep]
    have hr1 : ((List.range (provChain specs n).length).map
          (fun t => (((provChain specs n).getD t []).length : ℚ))).sum
        = ((provChain specs n).map (fun g => (g.length : ℚ))).sum := by
      rw [map_getD_range_map (provChain specs n) [] (fun g => (g.length : ℚ))]
    rw [hr1]
    have hr2 : ((provChain specs n).map (fun g => (g.length : ℚ))).sum
        = ((((provChain specs n).map List.length).sum : ℕ) : ℚ) := by
      rw [Nat.cast_list_sum, List.map_map]
      rfl
    rw [hr2]
    have hr3 : ((provChain specs n).map List.length).sum = n := by
      rw [← List.length_flatten, h5.length_eq, List.length_range]
    rw [hr3]

/-- C10 witness: the theorem applied at a 2-token metric with r = 1, column 0
of a concrete rectangular value tensor, and the empty chain at n = 1. -/
theorem bipartite_mass_conservation_witness :
    ((((bipartite_soft_matching [[(1 : ℚ)], [(1 : ℚ)]] 1 false false).merge Mode.sum
          [[(2 : ℚ)], [(3 : ℚ)]]).map (fun row => row.getD 0 0)).sum
        = (([[(2 : ℚ)], [(3 : ℚ)]] : Tensor).map (fun row => row.getD 0 0)).sum)
    ∧ ((wavgChain [] [[(1 : ℚ)]]).2.map List.sum).sum = ((1 : ℕ) : ℚ) :=
  ⟨(bipartite_mass_conservation [[(1 : ℚ)], [(1 : ℚ)]] 1 false [[(2 : ℚ)], [(3 : ℚ)]] 1
      rfl (by simp) 1 [[(1 : ℚ)]] [] rfl rfl).1 0,
   (bipartite_mass_conservation [[(1 : ℚ)], [(1 : ℚ)]] 1 false [[(2 : ℚ)], [(3 : ℚ)]] 1
      rfl (by simp) 1 [[(1 : ℚ)]] [] rfl rfl).2⟩

end ToMe
